import Mathlib

/-!
Verification of the QNNPACK-derived indirect-convolution core: a shallow
embedding of `src/indirection.c` (the four indirection planners) and of
`src/q8conv/8x8-neon.c` (the 8x8 indirect GEMM micro-kernel), together with
theorems checking the natural-language specification against the code.

`size_t` arithmetic is modelled as `Nat` reduced modulo `2^64` at every point
where the C program can wrap (subtraction, and any expression stored into a
`size_t`); pointers are modelled as byte offsets from a base.
-/

/-- Modulus of `size_t` / pointer arithmetic (2^64). -/
def M64 : Nat := 18446744073709551616

/-- C unsigned subtraction `a - b` on `size_t`: wraps modulo 2^64. -/
def sub64 (a b : Nat) : Nat := (a + (M64 - b % M64)) % M64

/-- `doz(a, b)` from qnnpack/math.h: `a ≥ b ? a - b : 0` on `size_t` operands. -/
def doz64 (a b : Nat) : Nat := if b % M64 ≤ a % M64 then a % M64 - b % M64 else 0

/-- A value stored in the indirection buffer: either the zero-row pointer or a
pointer `input + off` (modelled by the byte offset `off` from `input`). -/
inductive Ptr : Type where
  | zero : Ptr
  | inp : Nat → Ptr
deriving DecidableEq

/-- The operator descriptor fields read by the planners
(`qnnp_operator_t` in the source). -/
structure ConvOp : Type where
  input_pixel_stride : Nat
  groups : Nat
  group_input_channels : Nat
  batch_size : Nat
  input_height : Nat
  input_width : Nat
  output_height : Nat
  output_width : Nat
  kernel_height : Nat
  kernel_width : Nat
  stride_height : Nat
  stride_width : Nat
  dilation_height : Nat
  dilation_width : Nat
  input_padding_top : Nat
  input_padding_left : Nat

/-- Apply a list of stores `(index, value)` to a buffer, in program order
(later stores win). -/
def applyWrites {α : Type} (f : Nat → α) (l : List (Nat × α)) : Nat → α :=
  l.foldl (fun g e => Function.update g e.1 e.2) f

theorem applyWrites_nil {α : Type} (f : Nat → α) : applyWrites f [] = f := rfl

theorem applyWrites_cons {α : Type} (f : Nat → α) (e : Nat × α) (l : List (Nat × α)) :
    applyWrites f (e :: l) = applyWrites (Function.update f e.1 e.2) l := rfl

theorem applyWrites_append {α : Type} (f : Nat → α) (l1 l2 : List (Nat × α)) :
    applyWrites f (l1 ++ l2) = applyWrites (applyWrites f l1) l2 := by
  simp [applyWrites, List.foldl_append]

/-- A buffer cell never stored to keeps its initial contents. -/
theorem applyWrites_notMem {α : Type} (f : Nat → α) (l : List (Nat × α)) (i : Nat)
    (h : ∀ e ∈ l, e.1 ≠ i) : applyWrites f l i = f i := by
  induction l generalizing f with
  | nil => rfl
  | cons e t ih =>
    rw [applyWrites_cons, ih _ (fun e' he' => h e' (List.mem_cons_of_mem _ he'))]
    exact Function.update_noteq (fun hx => h e (List.mem_cons_self _ _) hx.symm) _ _

/-- If some store writes `v` at index `i` and every store at index `i` writes
the same value `v`, the final buffer holds `v` at `i`. -/
theorem applyWrites_eq_of_mem {α : Type} (f : Nat → α) (l : List (Nat × α)) (i : Nat) (v : α)
    (hmem : (i, v) ∈ l) (huniq : ∀ e ∈ l, e.1 = i → e.2 = v) :
    applyWrites f l i = v := by
  induction l generalizing f with
  | nil => cases hmem
  | cons e t ih =>
    rw [applyWrites_cons]
    by_cases ht : (i, v) ∈ t
    · exact ih _ ht (fun e' he' => huniq e' (List.mem_cons_of_mem _ he'))
    · have he : e = (i, v) := by
        rcases List.mem_cons.mp hmem with h | h
        · exact h.symm
        · exact absurd h ht
      subst he
      have hnone : ∀ e' ∈ t, e'.1 ≠ i := by
        intro e' he' hx
        have hv : e'.2 = v := huniq e' (List.mem_cons_of_mem _ he') hx
        have : (e'.1, e'.2) = (i, v) := by rw [hx, hv]
        exact ht (this ▸ he')
      rw [applyWrites_notMem _ _ _ hnone]
      simp

/-- Unique decomposition of `x + A * y` with `x < A`: mixed-radix digits are
determined. -/
theorem add_mul_inj {A x1 y1 x2 y2 : Nat} (h1 : x1 < A) (h2 : x2 < A)
    (h : x1 + A * y1 = x2 + A * y2) : x1 = x2 ∧ y1 = y2 := by
  have hx : x1 = x2 := by
    have e1 : (x1 + A * y1) % A = x1 := by
      rw [Nat.add_mul_mod_self_left, Nat.mod_eq_of_lt h1]
    have e2 : (x2 + A * y2) % A = x2 := by
      rw [Nat.add_mul_mod_self_left, Nat.mod_eq_of_lt h2]
    rw [← e1, ← e2, h]
  refine ⟨hx, ?_⟩
  subst hx
  have hA : 0 < A := Nat.pos_of_ne_zero (by rintro rfl; exact absurd h1 (Nat.not_lt_zero _))
  have := Nat.add_left_cancel h
  exact Nat.eq_of_mul_eq_mul_left hA this

/-- Digit bound for mixed-radix encodings: `x + A * y < A * B` when `x < A`, `y < B`. -/
theorem digit_lt {x y A B : Nat} (hx : x < A) (hy : y < B) : x + A * y < A * B := by
  calc x + A * y < A + A * y := by omega
    _ = A * (y + 1) := by ring
    _ ≤ A * B := Nat.mul_le_mul_left _ hy

/-- `sub64` agrees with mathematical subtraction when no wrap occurs. -/
theorem sub64_eq_sub {a b : Nat} (hb : b ≤ a) (ha : a < M64) : sub64 a b = a - b := by
  simp only [sub64, M64] at *
  omega

/-- The unsigned-wrap range test: `sub64 a b < C` is the signed test
`b ≤ a ∧ a - b < C` whenever `a < 2^64`, `b < 2^64` and `b + C ≤ 2^64`. -/
theorem sub64_lt_iff {a b C : Nat} (ha : a < M64) (hb : b < M64) (hbC : b + C ≤ M64) :
    sub64 a b < C ↔ b ≤ a ∧ a - b < C := by
  simp only [sub64, M64] at *
  omega

/-- Buffer index written by the direct-conv planner (`indirection.c` line 82),
reduced modulo 2^64 as the C `size_t` computation is. -/
def convIdx (op : ConvOp) (MR T g n t0 d ky kx : Nat) : Nat :=
  ((g * op.batch_size + n) * T * (op.kernel_height * op.kernel_width)
    + t0 * (op.kernel_height * op.kernel_width)
    + (ky * op.kernel_width + kx) * MR + d) % M64

/-- Input-pointer offset written by the direct-conv planner
(`indirection.c` lines 88-91). -/
def convOff (op : ConvOp) (n iy ix g : Nat) : Nat :=
  (n * op.input_height * op.input_width * op.input_pixel_stride
    + (iy * op.input_width + ix) * op.input_pixel_stride
    + g * op.group_input_channels) % M64

/-- The sequence of stores performed by `qnnp_indirection_init_conv2d`, in
program order.  The tile loop `for (t0 = 0; t0 < T; t0 += MR)` is modelled by
`q < ⌈T/MR⌉` with `t0 = q*MR`; the division/modulus by `output_width` models
`fxdiv_divide_size_t`, which the spec requires to agree with exact division. -/
def convWrites (op : ConvOp) (MR T : Nat) : List (Nat × Ptr) :=
  (List.range op.groups).flatMap fun g =>
  (List.range op.batch_size).flatMap fun n =>
  (List.range ((T + MR - 1) / MR)).flatMap fun q =>
  (List.range MR).flatMap fun d =>
  let o := min (q * MR + d) (sub64 (op.output_height * op.output_width) 1)
  let oy := o / op.output_width
  let ox := o % op.output_width
  (List.range op.kernel_height).flatMap fun ky =>
  let iy := sub64 (oy * op.stride_height + ky * op.dilation_height) op.input_padding_top
  if iy < op.input_height then
    (List.range op.kernel_width).map fun kx =>
      let ix := sub64 (ox * op.stride_width + kx * op.dilation_width) op.input_padding_left
      if ix < op.input_width then
        (convIdx op MR T g n (q * MR) d ky kx, Ptr.inp (convOff op n iy ix g))
      else
        (convIdx op MR T g n (q * MR) d ky kx, Ptr.zero)
  else
    (List.range op.kernel_width).map fun kx =>
      (convIdx op MR T g n (q * MR) d ky kx, Ptr.zero)

/-- The single store performed by the direct-conv planner for a given loop
tuple `(g, n, q, d, ky, kx)` (merging the hoisted `input_y` branch). -/
def convEntry (op : ConvOp) (MR T g n q d ky kx : Nat) : Nat × Ptr :=
  let o := min (q * MR + d) (sub64 (op.output_height * op.output_width) 1)
  let oy := o / op.output_width
  let ox := o % op.output_width
  let iy := sub64 (oy * op.stride_height + ky * op.dilation_height) op.input_padding_top
  let ix := sub64 (ox * op.stride_width + kx * op.dilation_width) op.input_padding_left
  (convIdx op MR T g n (q * MR) d ky kx,
    if iy < op.input_height ∧ ix < op.input_width then Ptr.inp (convOff op n iy ix g)
    else Ptr.zero)

theorem flatMap_ext {α β : Type} (l : List α) {f g : α → List β} (h : ∀ a, f a = g a) :
    l.flatMap f = l.flatMap g := congrArg (List.flatMap l) (funext h)

theorem map_ext_fun {α β : Type} (l : List α) {f g : α → β} (h : ∀ a, f a = g a) :
    l.map f = l.map g := congrArg (fun f => List.map f l) (funext h)

theorem convWrites_eq (op : ConvOp) (MR T : Nat) :
    convWrites op MR T
      = ((List.range op.groups).flatMap fun g =>
         (List.range op.batch_size).flatMap fun n =>
         (List.range ((T + MR - 1) / MR)).flatMap fun q =>
         (List.range MR).flatMap fun d =>
         (List.range op.kernel_height).flatMap fun ky =>
         (List.range op.kernel_width).map fun kx => convEntry op MR T g n q d ky kx) := by
  unfold convWrites
  refine flatMap_ext _ fun g => flatMap_ext _ fun n => flatMap_ext _ fun q =>
    flatMap_ext _ fun d => flatMap_ext _ fun ky => ?_
  by_cases hiy : sub64 ((min (q * MR + d) (sub64 (op.output_height * op.output_width) 1)
        / op.output_width) * op.stride_height + ky * op.dilation_height) op.input_padding_top
      < op.input_height
  · rw [if_pos hiy]
    refine map_ext_fun _ fun kx => ?_
    simp only [convEntry]
    by_cases hix : sub64 ((min (q * MR + d) (sub64 (op.output_height * op.output_width) 1)
          % op.output_width) * op.stride_width + kx * op.dilation_width) op.input_padding_left
        < op.input_width
    · rw [if_pos hix, if_pos ⟨hiy, hix⟩]
    · rw [if_neg hix, if_neg (fun hc => hix hc.2)]
  · rw [if_neg hiy]
    refine map_ext_fun _ fun kx => ?_
    simp only [convEntry]
    rw [if_neg (fun hc => hiy hc.1)]

theorem convWrites_mem_iff (op : ConvOp) (MR T : Nat) (e : Nat × Ptr) :
    e ∈ convWrites op MR T
      ↔ ∃ g, g < op.groups ∧ ∃ n, n < op.batch_size ∧ ∃ q, q < (T + MR - 1) / MR
          ∧ ∃ d, d < MR ∧ ∃ ky, ky < op.kernel_height ∧ ∃ kx, kx < op.kernel_width
          ∧ e = convEntry op MR T g n q d ky kx := by
  rw [convWrites_eq]
  simp only [List.mem_flatMap, List.mem_map, List.mem_range]
  constructor
  · rintro ⟨g, hg, n, hn, q, hq, d, hd, ky, hky, kx, hkx, rfl⟩
    exact ⟨g, hg, n, hn, q, hq, d, hd, ky, hky, kx, hkx, rfl⟩
  · rintro ⟨g, hg, n, hn, q, hq, d, hd, ky, hky, kx, hkx, rfl⟩
    exact ⟨g, hg, n, hn, q, hq, d, hd, ky, hky, kx, hkx, rfl⟩

theorem ceil_div_eq_div {MR T : Nat} (hMR : 0 < MR) (hdvd : MR ∣ T) :
    (T + MR - 1) / MR = T / MR := by
  obtain ⟨Q, hQ⟩ := hdvd
  subst hQ
  rw [Nat.mul_div_cancel_left _ hMR]
  have h1 : MR * Q + MR - 1 = MR * (Q + 1) - 1 := by ring_nf
  rcases Nat.eq_zero_or_pos Q with hQ0 | hQ0
  · subst hQ0
    simp [Nat.div_eq_of_lt (by omega : MR - 1 < MR)]
  · have h2 : MR * Q + MR - 1 = MR * Q + (MR - 1) := by omega
    rw [h2, Nat.mul_add_div hMR, Nat.div_eq_of_lt (by omega : MR - 1 < MR)]
    omega

theorem convPureIdx_lt (op : ConvOp) (MR T : Nat) (hMR : 0 < MR) (hdvd : MR ∣ T)
    {g n q d ky kx : Nat} (hg : g < op.groups) (hn : n < op.batch_size)
    (hq : q < T / MR) (hd : d < MR)
    (hky : ky < op.kernel_height) (hkx : kx < op.kernel_width) :
    (g * op.batch_size + n) * T * (op.kernel_height * op.kernel_width)
      + q * MR * (op.kernel_height * op.kernel_width)
      + (ky * op.kernel_width + kx) * MR + d
      < op.groups * op.batch_size * T * (op.kernel_height * op.kernel_width) := by
  obtain ⟨Q, hQ⟩ := hdvd
  subst hQ
  rw [Nat.mul_div_cancel_left _ hMR] at hq
  have hs : ky * op.kernel_width + kx < op.kernel_height * op.kernel_width := by
    calc ky * op.kernel_width + kx < ky * op.kernel_width + op.kernel_width := by omega
      _ = (ky + 1) * op.kernel_width := by ring
      _ ≤ op.kernel_height * op.kernel_width := Nat.mul_le_mul_right _ hky
  have hbase : g * op.batch_size + n < op.groups * op.batch_size := by
    calc g * op.batch_size + n = n + op.batch_size * g := by ring
      _ < op.batch_size * op.groups := digit_lt hn hg
      _ = op.groups * op.batch_size := by ring
  calc (g * op.batch_size + n) * (MR * Q) * (op.kernel_height * op.kernel_width)
        + q * MR * (op.kernel_height * op.kernel_width)
        + (ky * op.kernel_width + kx) * MR + d
      = d + MR * ((ky * op.kernel_width + kx)
          + (op.kernel_height * op.kernel_width)
              * (q + Q * (g * op.batch_size + n))) := by ring
    _ < MR * ((op.kernel_height * op.kernel_width)
          * (Q * (op.groups * op.batch_size))) :=
        digit_lt hd (digit_lt hs (digit_lt hq hbase))
    _ = op.groups * op.batch_size * (MR * Q) * (op.kernel_height * op.kernel_width) := by
        ring

theorem convIdx_eq_pure (op : ConvOp) (MR T : Nat) (hMR : 0 < MR) (hdvd : MR ∣ T)
    {g n q d ky kx : Nat} (hg : g < op.groups) (hn : n < op.batch_size)
    (hq : q < T / MR) (hd : d < MR)
    (hky : ky < op.kernel_height) (hkx : kx < op.kernel_width)
    (hidx : op.groups * op.batch_size * T * (op.kernel_height * op.kernel_width) ≤ M64) :
    convIdx op MR T g n (q * MR) d ky kx
      = (g * op.batch_size + n) * T * (op.kernel_height * op.kernel_width)
        + q * MR * (op.kernel_height * op.kernel_width)
        + (ky * op.kernel_width + kx) * MR + d := by
  unfold convIdx
  exact Nat.mod_eq_of_lt
    (lt_of_lt_of_le (convPureIdx_lt op MR T hMR hdvd hg hn hq hd hky hkx) hidx)

theorem convTuple_inj (op : ConvOp) (MR T : Nat) (hMR : 0 < MR) (hdvd : MR ∣ T)
    {g n q d ky kx g' n' q' d' ky' kx' : Nat}
    (hg : g < op.groups) (hn : n < op.batch_size) (hq : q < T / MR) (hd : d < MR)
    (hky : ky < op.kernel_height) (hkx : kx < op.kernel_width)
    (hg' : g' < op.groups) (hn' : n' < op.batch_size) (hq' : q' < T / MR) (hd' : d' < MR)
    (hky' : ky' < op.kernel_height) (hkx' : kx' < op.kernel_width)
    (hidx : op.groups * op.batch_size * T * (op.kernel_height * op.kernel_width) ≤ M64)
    (h : convIdx op MR T g n (q * MR) d ky kx = convIdx op MR T g' n' (q' * MR) d' ky' kx') :
    g = g' ∧ n = n' ∧ q = q' ∧ d = d' ∧ ky = ky' ∧ kx = kx' := by
  rw [convIdx_eq_pure op MR T hMR hdvd hg hn hq hd hky hkx hidx,
      convIdx_eq_pure op MR T hMR hdvd hg' hn' hq' hd' hky' hkx' hidx] at h
  obtain ⟨Q, hQ⟩ := hdvd
  subst hQ
  rw [Nat.mul_div_cancel_left _ hMR] at hq hq'
  have hs : ky * op.kernel_width + kx < op.kernel_height * op.kernel_width := by
    calc ky * op.kernel_width + kx < ky * op.kernel_width + op.kernel_width := by omega
      _ = (ky + 1) * op.kernel_width := by ring
      _ ≤ op.kernel_height * op.kernel_width := Nat.mul_le_mul_right _ hky
  have hs' : ky' * op.kernel_width + kx' < op.kernel_height * op.kernel_width := by
    calc ky' * op.kernel_width + kx' < ky' * op.kernel_width + op.kernel_width := by omega
      _ = (ky' + 1) * op.kernel_width := by ring
      _ ≤ op.kernel_height * op.kernel_width := Nat.mul_le_mul_right _ hky'
  have e1 : (g * op.batch_size + n) * (MR * Q) * (op.kernel_height * op.kernel_width)
        + q * MR * (op.kernel_height * op.kernel_width)
        + (ky * op.kernel_width + kx) * MR + d
      = d + MR * ((ky * op.kernel_width + kx)
          + (op.kernel_height * op.kernel_width)
              * (q + Q * (g * op.batch_size + n))) := by ring
  have e2 : (g' * op.batch_size + n') * (MR * Q) * (op.kernel_height * op.kernel_width)
        + q' * MR * (op.kernel_height * op.kernel_width)
        + (ky' * op.kernel_width + kx') * MR + d'
      = d' + MR * ((ky' * op.kernel_width + kx')
          + (op.kernel_height * op.kernel_width)
              * (q' + Q * (g' * op.batch_size + n'))) := by ring
  rw [e1, e2] at h
  obtain ⟨hdd, h2⟩ := add_mul_inj hd hd' h
  obtain ⟨hss, h3⟩ := add_mul_inj hs hs' h2
  obtain ⟨hqq, h4⟩ := add_mul_inj hq hq' h3
  have e3 : g * op.batch_size + n = n + op.batch_size * g := by ring
  have e4 : g' * op.batch_size + n' = n' + op.batch_size * g' := by ring
  rw [e3, e4] at h4
  obtain ⟨hnn, hgg⟩ := add_mul_inj hn hn' h4
  have e5 : ky * op.kernel_width + kx = kx + op.kernel_width * ky := by ring
  have e6 : ky' * op.kernel_width + kx' = kx' + op.kernel_width * ky' := by ring
  rw [e5, e6] at hss
  obtain ⟨hxx, hyy⟩ := add_mul_inj hkx hkx' hss
  exact ⟨hgg, hnn, hqq, hdd, hyy, hxx⟩

/-- The final buffer cell written by the direct-conv planner for an in-domain
loop tuple holds exactly that tuple's store (no later iteration clobbers it). -/
theorem convWrites_entry (op : ConvOp) (MR T : Nat) (init : Nat → Ptr)
    {g n q d ky kx : Nat} (hMR : 0 < MR) (hdvd : MR ∣ T)
    (hg : g < op.groups) (hn : n < op.batch_size) (hq : q < T / MR) (hd : d < MR)
    (hky : ky < op.kernel_height) (hkx : kx < op.kernel_width)
    (hidx : op.groups * op.batch_size * T * (op.kernel_height * op.kernel_width) ≤ M64) :
    applyWrites init (convWrites op MR T) ((convEntry op MR T g n q d ky kx).1)
      = (convEntry op MR T g n q d ky kx).2 := by
  have hceil := ceil_div_eq_div hMR hdvd
  apply applyWrites_eq_of_mem
  · rw [convWrites_mem_iff]
    exact ⟨g, hg, n, hn, q, by rw [hceil]; exact hq, d, hd, ky, hky, kx, hkx, rfl⟩
  · rintro e he hei
    rw [convWrites_mem_iff] at he
    obtain ⟨g', hg', n', hn', q', hq', d', hd', ky', hky', kx', hkx', rfl⟩ := he
    rw [hceil] at hq'
    simp only [convEntry] at hei ⊢
    obtain ⟨rfl, rfl, rfl, rfl, rfl, rfl⟩ :=
      convTuple_inj op MR T hMR hdvd hg' hn' hq' hd' hky' hkx' hg hn hq hd hky hkx hidx hei
    rfl

/-- Claim-side decomposition of the clamped flat output index: `oy` of
`o = min(ti, H'·W' - 1)`. -/
def oyOf (op : ConvOp) (ti : Nat) : Nat :=
  min ti (op.output_height * op.output_width - 1) / op.output_width

/-- Claim-side decomposition of the clamped flat output index: `ox` of
`o = min(ti, H'·W' - 1)`. -/
def oxOf (op : ConvOp) (ti : Nat) : Nat :=
  min ti (op.output_height * op.output_width - 1) % op.output_width

theorem convOff_pure_lt (op : ConvOp) {n iy ix g : Nat}
    (hn : n < op.batch_size) (hiy : iy < op.input_height) (hix : ix < op.input_width)
    (hg : g < op.groups)
    (hoffM : op.batch_size * op.input_height * op.input_width * op.input_pixel_stride
              + op.groups * op.group_input_channels < M64) :
    n * op.input_height * op.input_width * op.input_pixel_stride
      + (iy * op.input_width + ix) * op.input_pixel_stride
      + g * op.group_input_channels < M64 := by
  have h1 : iy * op.input_width + ix < op.input_height * op.input_width := by
    calc iy * op.input_width + ix < iy * op.input_width + op.input_width := by omega
      _ = (iy + 1) * op.input_width := by ring
      _ ≤ op.input_height * op.input_width := Nat.mul_le_mul_right _ hiy
  have h2 : iy * op.input_width + ix + op.input_height * op.input_width * n
      < op.input_height * op.input_width * op.batch_size := digit_lt h1 hn
  have h3 : (iy * op.input_width + ix + op.input_height * op.input_width * n)
        * op.input_pixel_stride
      ≤ op.input_height * op.input_width * op.batch_size * op.input_pixel_stride :=
    Nat.mul_le_mul_right _ (le_of_lt h2)
  have h4 : g * op.group_input_channels ≤ op.groups * op.group_input_channels :=
    Nat.mul_le_mul_right _ (le_of_lt hg)
  calc n * op.input_height * op.input_width * op.input_pixel_stride
        + (iy * op.input_width + ix) * op.input_pixel_stride + g * op.group_input_channels
      = (iy * op.input_width + ix + op.input_height * op.input_width * n)
          * op.input_pixel_stride + g * op.group_input_channels := by ring
    _ ≤ op.input_height * op.input_width * op.batch_size * op.input_pixel_stride
          + op.groups * op.group_input_channels := Nat.add_le_add h3 h4
    _ = op.batch_size * op.input_height * op.input_width * op.input_pixel_stride
          + op.groups * op.group_input_channels := by ring
    _ < M64 := hoffM

/-- C1: for the direct convolution planner, for every group `g < G`, image
`n < N`, tile start `t0` (a multiple of `MR` below `T`), tile offset `d < MR`
and kernel position `(ky, kx)`, the indirection-buffer entry at index
`(g·N + n)·T·kH·kW + t0·kH·kW + (ky·kW + kx)·MR + d` equals
`input + n·H·W·input_pixel_stride + (iy·W + ix)·input_pixel_stride + g·IC`
when `0 ≤ oy·sH + ky·dH − pT < H` and `0 ≤ ox·sW + kx·dW − pL < W`, and the
zero pointer otherwise, where `(oy, ox)` decomposes the clamped flat output
index `min(t0+d, H'·W'−1)` by `W'` (all under non-overflow side conditions
making the `size_t` computation exact). -/
theorem conv2d_plan_entry_spec (op : ConvOp) (MR T : Nat) (init : Nat → Ptr)
    (g n t0 d ky kx : Nat)
    (hMR : 0 < MR) (hdvd : MR ∣ T)
    (hg : g < op.groups) (hn : n < op.batch_size)
    (ht0 : t0 < T) (ht0m : MR ∣ t0) (hd : d < MR)
    (hky : ky < op.kernel_height) (hkx : kx < op.kernel_width)
    (hos : 0 < op.output_height * op.output_width)
    (hosM : op.output_height * op.output_width < M64)
    (hidx : op.groups * op.batch_size * T * (op.kernel_height * op.kernel_width) ≤ M64)
    (hoffM : op.batch_size * op.input_height * op.input_width * op.input_pixel_stride
              + op.groups * op.group_input_channels < M64)
    (hyA : oyOf op (t0 + d) * op.stride_height + ky * op.dilation_height < M64)
    (hpT : op.input_padding_top < M64)
    (hpTH : op.input_padding_top + op.input_height ≤ M64)
    (hxA : oxOf op (t0 + d) * op.stride_width + kx * op.dilation_width < M64)
    (hpL : op.input_padding_left < M64)
    (hpLW : op.input_padding_left + op.input_width ≤ M64) :
    applyWrites init (convWrites op MR T)
        ((g * op.batch_size + n) * T * (op.kernel_height * op.kernel_width)
          + t0 * (op.kernel_height * op.kernel_width)
          + (ky * op.kernel_width + kx) * MR + d)
      = if op.input_padding_top ≤ oyOf op (t0 + d) * op.stride_height + ky * op.dilation_height
            ∧ oyOf op (t0 + d) * op.stride_height + ky * op.dilation_height
                - op.input_padding_top < op.input_height
            ∧ op.input_padding_left ≤ oxOf op (t0 + d) * op.stride_width + kx * op.dilation_width
            ∧ oxOf op (t0 + d) * op.stride_width + kx * op.dilation_width
                - op.input_padding_left < op.input_width
        then Ptr.inp (n * op.input_height * op.input_width * op.input_pixel_stride
              + ((oyOf op (t0 + d) * op.stride_height + ky * op.dilation_height
                    - op.input_padding_top) * op.input_width
                  + (oxOf op (t0 + d) * op.stride_width + kx * op.dilation_width
                    - op.input_padding_left)) * op.input_pixel_stride
              + g * op.group_input_channels)
        else Ptr.zero := by
  obtain ⟨c, hc⟩ := ht0m
  obtain ⟨Q, hQ⟩ := hdvd
  have hq : c < T / MR := by
    subst hQ hc
    rw [Nat.mul_div_cancel_left _ hMR]
    exact Nat.lt_of_mul_lt_mul_left ht0
  have ht0q : t0 = c * MR := by rw [hc, Nat.mul_comm]
  have hkey := convWrites_entry op MR T init hMR ⟨Q, hQ⟩ hg hn hq hd hky hkx hidx
  have hsub1 : sub64 (op.output_height * op.output_width) 1
      = op.output_height * op.output_width - 1 :=
    sub64_eq_sub hos hosM
  have hidx_eq : (convEntry op MR T g n c d ky kx).1
      = (g * op.batch_size + n) * T * (op.kernel_height * op.kernel_width)
        + t0 * (op.kernel_height * op.kernel_width)
        + (ky * op.kernel_width + kx) * MR + d := by
    simp only [convEntry]
    rw [convIdx_eq_pure op MR T hMR ⟨Q, hQ⟩ hg hn hq hd hky hkx hidx, ht0q]
  rw [hidx_eq] at hkey
  rw [hkey]
  simp only [convEntry, hsub1, ← ht0q]
  simp only [oyOf, oxOf] at hyA hxA
  simp only [sub64_lt_iff hyA hpT hpTH, sub64_lt_iff hxA hpL hpLW, oyOf, oxOf]
  split_ifs with hA hB hB
  · rw [sub64_eq_sub hA.1.1 hyA, sub64_eq_sub hA.2.1 hxA]
    unfold convOff
    rw [Nat.mod_eq_of_lt (convOff_pure_lt op hn hA.1.2 hA.2.2 hg hoffM)]
  · exact absurd ⟨hA.1.1, hA.1.2, hA.2.1, hA.2.2⟩ hB
  · exact absurd ⟨⟨hB.1, hB.2.1⟩, hB.2.2.1, hB.2.2.2⟩ hA
  · rfl

/-- A 1x1 everything operator used to instantiate planner theorems. -/
def opTiny : ConvOp := ⟨1, 1, 1, 1, 1, 1, 1, 1, 1, 1, 1, 1, 1, 1, 0, 0⟩

/-- Witness for C1: all hypotheses hold and the entry formula evaluates on a
concrete 1x1 convolution plan. -/
theorem conv2d_plan_entry_spec_witness :
    applyWrites (fun _ => Ptr.zero) (convWrites opTiny 1 1) 0 = Ptr.inp 0 :=
  (conv2d_plan_entry_spec opTiny 1 1 (fun _ => Ptr.zero) 0 0 0 0 0 0
    (by decide) (by decide) (by decide) (by decide) (by decide) (by decide) (by decide)
    (by decide) (by decide) (by decide) (by decide) (by decide) (by decide) (by decide)
    (by decide) (by decide) (by decide) (by decide) (by decide)).trans (by decide)

/-- C7: for the direct convolution planner, whenever the padded tile count
exceeds the real output size (`T > H'·W'`), the buffer entry written for a
padded tile position (`t0 + d ≥ H'·W'`) equals the buffer entry written for
the last real output pixel (flat index `H'·W' − 1`, at its own tile position)
at the same kernel position, for every group, image and kernel position. -/
theorem conv2d_tile_tail_idem (op : ConvOp) (MR T : Nat) (init : Nat → Ptr)
    (g n t0 d ky kx : Nat)
    (hMR : 0 < MR) (hdvd : MR ∣ T)
    (hg : g < op.groups) (hn : n < op.batch_size)
    (ht0 : t0 < T) (ht0m : MR ∣ t0) (hd : d < MR)
    (hky : ky < op.kernel_height) (hkx : kx < op.kernel_width)
    (hT : op.output_height * op.output_width < T)
    (hpad : op.output_height * op.output_width ≤ t0 + d)
    (hos : 0 < op.output_height * op.output_width)
    (hidx : op.groups * op.batch_size * T * (op.kernel_height * op.kernel_width) ≤ M64) :
    applyWrites init (convWrites op MR T)
        ((g * op.batch_size + n) * T * (op.kernel_height * op.kernel_width)
          + t0 * (op.kernel_height * op.kernel_width)
          + (ky * op.kernel_width + kx) * MR + d)
      = applyWrites init (convWrites op MR T)
          ((g * op.batch_size + n) * T * (op.kernel_height * op.kernel_width)
            + (op.output_height * op.output_width - 1) / MR * MR
                * (op.kernel_height * op.kernel_width)
            + (ky * op.kernel_width + kx) * MR
            + (op.output_height * op.output_width - 1) % MR) := by
  obtain ⟨c, hc⟩ := ht0m
  obtain ⟨Q, hQ⟩ := hdvd
  have hq : c < T / MR := by
    subst hQ hc
    rw [Nat.mul_div_cancel_left _ hMR]
    exact Nat.lt_of_mul_lt_mul_left ht0
  have ht0q : t0 = c * MR := by rw [hc, Nat.mul_comm]
  have hTM : T ≤ M64 := by
    refine le_trans ?_ hidx
    have hG : 1 ≤ op.groups := Nat.one_le_iff_ne_zero.mpr (by omega)
    have hN : 1 ≤ op.batch_size := Nat.one_le_iff_ne_zero.mpr (by omega)
    have hK : 1 ≤ op.kernel_height * op.kernel_width :=
      Nat.one_le_iff_ne_zero.mpr (Nat.mul_ne_zero (by omega) (by omega))
    calc T = 1 * 1 * T * 1 := by ring
      _ ≤ op.groups * op.batch_size * T * (op.kernel_height * op.kernel_width) :=
        Nat.mul_le_mul (Nat.mul_le_mul (Nat.mul_le_mul hG hN) (le_refl T)) hK
  have hosM : op.output_height * op.output_width < M64 := lt_of_lt_of_le hT hTM
  have hq2 : (op.output_height * op.output_width - 1) / MR < T / MR := by
    subst hQ
    rw [Nat.mul_div_cancel_left _ hMR]
    rw [Nat.div_lt_iff_lt_mul hMR]
    calc op.output_height * op.output_width - 1 < MR * Q := by omega
      _ = Q * MR := Nat.mul_comm _ _
  have hd2 : (op.output_height * op.output_width - 1) % MR < MR := Nat.mod_lt _ hMR
  have hkey1 := convWrites_entry op MR T init hMR ⟨Q, hQ⟩ hg hn hq hd hky hkx hidx
  have hkey2 := convWrites_entry op MR T init hMR ⟨Q, hQ⟩ hg hn hq2 hd2 hky hkx hidx
  have hidx_eq1 : (convEntry op MR T g n c d ky kx).1
      = (g * op.batch_size + n) * T * (op.kernel_height * op.kernel_width)
        + t0 * (op.kernel_height * op.kernel_width)
        + (ky * op.kernel_width + kx) * MR + d := by
    simp only [convEntry]
    rw [convIdx_eq_pure op MR T hMR ⟨Q, hQ⟩ hg hn hq hd hky hkx hidx, ht0q]
  have hidx_eq2 : (convEntry op MR T g n ((op.output_height * op.output_width - 1) / MR)
        ((op.output_height * op.output_width - 1) % MR) ky kx).1
      = (g * op.batch_size + n) * T * (op.kernel_height * op.kernel_width)
        + (op.output_height * op.output_width - 1) / MR * MR
            * (op.kernel_height * op.kernel_width)
        + (ky * op.kernel_width + kx) * MR
        + (op.output_height * op.output_width - 1) % MR := by
    simp only [convEntry]
    rw [convIdx_eq_pure op MR T hMR ⟨Q, hQ⟩ hg hn hq2 hd2 hky hkx hidx]
  rw [hidx_eq1] at hkey1
  rw [hidx_eq2] at hkey2
  rw [hkey1, hkey2]
  have hsub1 : sub64 (op.output_height * op.output_width) 1
      = op.output_height * op.output_width - 1 := sub64_eq_sub hos hosM
  have ho1 : min (c * MR + d) (sub64 (op.output_height * op.output_width) 1)
      = op.output_height * op.output_width - 1 := by
    rw [hsub1]
    exact min_eq_right (by omega)
  have ho2 : min ((op.output_height * op.output_width - 1) / MR * MR
        + (op.output_height * op.output_width - 1) % MR)
        (sub64 (op.output_height * op.output_width) 1)
      = op.output_height * op.output_width - 1 := by
    rw [hsub1]
    have : (op.output_height * op.output_width - 1) / MR * MR
        + (op.output_height * op.output_width - 1) % MR
        = op.output_height * op.output_width - 1 := Nat.div_add_mod' _ _
    rw [this, min_self]
  simp only [convEntry, ho1, ho2]

/-- Witness for C7: with `T = 2 > 1 = H'·W'` the padded tile entry coincides
with the last real pixel's entry. -/
theorem conv2d_tile_tail_idem_witness :
    applyWrites (fun _ => Ptr.zero) (convWrites opTiny 2 2) 1
      = applyWrites (fun _ => Ptr.zero) (convWrites opTiny 2 2) 0 :=
  conv2d_tile_tail_idem opTiny 2 2 (fun _ => Ptr.zero) 0 0 0 1 0 0
    (by decide) (by decide) (by decide) (by decide) (by decide) (by decide) (by decide)
    (by decide) (by decide) (by decide) (by decide) (by decide) (by decide)

/-- Input-pointer offset written by the transposed-conv planner
(`indirection.c` line 210). -/
def deconvOff (op : ConvOp) (n iy ix g : Nat) : Nat :=
  (((n * op.input_height + iy) * op.input_width + ix) * op.input_pixel_stride
    + g * op.group_input_channels) % M64

/-- Loop body of `qnnp_indirection_init_deconv2d` (`indirection.c`
lines 196-213) for one tuple `(g, n, q, d, ky, kx)`: the store
`(index, value)` it performs. -/
def deconvEntry (op : ConvOp) (MR T g n q d ky kx : Nat) : Nat × Ptr :=
  let o := min (q * MR + d) (sub64 (op.output_height * op.output_width) 1)
  let oy := o / op.output_width
  let ox := o % op.output_width
  let y := sub64 (oy + op.input_padding_top) (ky * op.dilation_height)
  let iy := y / op.stride_height
  let x := sub64 (ox + op.input_padding_left) (kx * op.dilation_width)
  let ix := x / op.stride_width
  (convIdx op MR T g n (q * MR) d ky kx,
    if iy * op.stride_height = y ∧ iy < op.input_height
        ∧ ix * op.stride_width = x ∧ ix < op.input_width
    then Ptr.inp (deconvOff op n iy ix g)
    else Ptr.zero)

/-- The sequence of stores performed by `qnnp_indirection_init_deconv2d`, in
program order (the buffer index formula is the same `convIdx` as the direct
plan). -/
def deconvWrites (op : ConvOp) (MR T : Nat) : List (Nat × Ptr) :=
  (List.range op.groups).flatMap fun g =>
  (List.range op.batch_size).flatMap fun n =>
  (List.range ((T + MR - 1) / MR)).flatMap fun q =>
  (List.range MR).flatMap fun d =>
  (List.range op.kernel_height).flatMap fun ky =>
  (List.range op.kernel_width).map fun kx => deconvEntry op MR T g n q d ky kx

theorem deconvWrites_mem_iff (op : ConvOp) (MR T : Nat) (e : Nat × Ptr) :
    e ∈ deconvWrites op MR T
      ↔ ∃ g, g < op.groups ∧ ∃ n, n < op.batch_size ∧ ∃ q, q < (T + MR - 1) / MR
          ∧ ∃ d, d < MR ∧ ∃ ky, ky < op.kernel_height ∧ ∃ kx, kx < op.kernel_width
          ∧ e = deconvEntry op MR T g n q d ky kx := by
  unfold deconvWrites
  simp only [List.mem_flatMap, List.mem_map, List.mem_range]
  constructor
  · rintro ⟨g, hg, n, hn, q, hq, d, hd, ky, hky, kx, hkx, rfl⟩
    exact ⟨g, hg, n, hn, q, hq, d, hd, ky, hky, kx, hkx, rfl⟩
  · rintro ⟨g, hg, n, hn, q, hq, d, hd, ky, hky, kx, hkx, rfl⟩
    exact ⟨g, hg, n, hn, q, hq, d, hd, ky, hky, kx, hkx, rfl⟩

/-- The final buffer cell written by the transposed-conv planner for an
in-domain loop tuple holds exactly that tuple's store. -/
theorem deconvWrites_entry (op : ConvOp) (MR T : Nat) (init : Nat → Ptr)
    {g n q d ky kx : Nat} (hMR : 0 < MR) (hdvd : MR ∣ T)
    (hg : g < op.groups) (hn : n < op.batch_size) (hq : q < T / MR) (hd : d < MR)
    (hky : ky < op.kernel_height) (hkx : kx < op.kernel_width)
    (hidx : op.groups * op.batch_size * T * (op.kernel_height * op.kernel_width) ≤ M64) :
    applyWrites init (deconvWrites op MR T) ((deconvEntry op MR T g n q d ky kx).1)
      = (deconvEntry op MR T g n q d ky kx).2 := by
  have hceil := ceil_div_eq_div hMR hdvd
  apply applyWrites_eq_of_mem
  · rw [deconvWrites_mem_iff]
    exact ⟨g, hg, n, hn, q, by rw [hceil]; exact hq, d, hd, ky, hky, kx, hkx, rfl⟩
  · rintro e he hei
    rw [deconvWrites_mem_iff] at he
    obtain ⟨g', hg', n', hn', q', hq', d', hd', ky', hky', kx', hkx', rfl⟩ := he
    rw [hceil] at hq'
    simp only [deconvEntry] at hei ⊢
    obtain ⟨rfl, rfl, rfl, rfl, rfl, rfl⟩ :=
      convTuple_inj op MR T hMR hdvd hg' hn' hq' hd' hky' hkx' hg hn hq hd hky hkx hidx hei
    rfl

/-- One axis of the transposed-conv validity test: the code's
`iy·s == y && iy < H` on the wrapped `y = sub64 A kd` matches the
mathematical stride/range test, provided `kd + s·H ≤ 2^64`. -/
theorem deconvAxis_iff {A kd s H : Nat} (hs : 0 < s) (hA : A < M64) (hkd : kd < M64)
    (hB : kd + s * H ≤ M64) :
    (sub64 A kd / s * s = sub64 A kd ∧ sub64 A kd / s < H)
      ↔ kd ≤ A ∧ (A - kd) % s = 0 ∧ (A - kd) / s < H := by
  by_cases hle : kd ≤ A
  · rw [sub64_eq_sub hle hA]
    constructor
    · rintro ⟨h1, h2⟩
      refine ⟨hle, ?_, h2⟩
      have hdvd : s ∣ (A - kd) := ⟨(A - kd) / s, h1.symm.trans (Nat.mul_comm _ _)⟩
      exact Nat.mod_eq_zero_of_dvd hdvd
    · rintro ⟨_, h1, h2⟩
      exact ⟨Nat.div_mul_cancel (Nat.dvd_of_mod_eq_zero h1), h2⟩
  · have hy : sub64 A kd = A + M64 - kd := by
      simp only [sub64, M64] at *
      omega
    rw [hy]
    constructor
    · rintro ⟨_, h2⟩
      exfalso
      have hge : H * s ≤ A + M64 - kd := by
        rw [Nat.mul_comm]
        omega
      have := (Nat.le_div_iff_mul_le hs).mpr hge
      omega
    · rintro ⟨h0, _, _⟩
      exact absurd h0 hle

theorem ite_ne_zero_iff (C : Prop) [Decidable C] (off : Nat) :
    (if C then Ptr.inp off else Ptr.zero) ≠ Ptr.zero ↔ C := by
  split_ifs with h
  · exact iff_of_true (by simp) h
  · exact iff_of_false (by simp) h

/-- A transposed-conv operator with huge but representable `input_height` and
`dilation_height` (`H = 2^63`, `dH = 2^63 + 1`), inside the full `size_t`
parameter domain. -/
def opDeconvBig : ConvOp :=
  ⟨1, 1, 0, 1, 9223372036854775808, 1, 1, 1, 2, 1, 1, 1, 9223372036854775809, 1, 0, 0⟩

/-- Counterexample to C5 as stated: for the full `size_t` parameter domain the
wrap filter fails.  At `ky·dH = 2^63 + 1 > 0 = oy + pT`, the wrapped
`y = 2^63 - 1` still passes `iy·sH == y && iy < H` (with `H = 2^63`), so the
planner stores a non-zero input pointer where the claim requires `zero`. -/
theorem deconv2d_wrap_counterexample :
    applyWrites (fun _ => Ptr.zero) (deconvWrites opDeconvBig 1 1) 1 ≠ Ptr.zero
      ∧ 0 + opDeconvBig.input_padding_top < 1 * opDeconvBig.dilation_height := by
  decide

/-- C5 (amended): for the transposed-convolution planner, under side
conditions bounding the parameters away from `size_t` wraparound
(`sH, sW > 0`, `oy + pT < 2^64`, `ox + pL < 2^64`, `ky·dH + sH·H ≤ 2^64`,
`kx·dW + sW·W ≤ 2^64`), the buffer entry is a non-zero input pointer iff
`ky·dH ≤ oy + pT`, `(oy + pT − ky·dH) mod sH = 0`, the quotient is `< H`,
and likewise for the x axis; in particular a logically negative coordinate
(`oy + pT < ky·dH`) always yields the zero pointer. -/
theorem deconv2d_entry_nonzero_iff (op : ConvOp) (MR T : Nat) (init : Nat → Ptr)
    (g n t0 d ky kx : Nat)
    (hMR : 0 < MR) (hdvd : MR ∣ T)
    (hg : g < op.groups) (hn : n < op.batch_size)
    (ht0 : t0 < T) (ht0m : MR ∣ t0) (hd : d < MR)
    (hky : ky < op.kernel_height) (hkx : kx < op.kernel_width)
    (hos : 0 < op.output_height * op.output_width)
    (hosM : op.output_height * op.output_width < M64)
    (hidx : op.groups * op.batch_size * T * (op.kernel_height * op.kernel_width) ≤ M64)
    (hsH : 0 < op.stride_height) (hsW : 0 < op.stride_width)
    (hyA : oyOf op (t0 + d) + op.input_padding_top < M64)
    (hykd : ky * op.dilation_height < M64)
    (hyB : ky * op.dilation_height + op.stride_height * op.input_height ≤ M64)
    (hxA : oxOf op (t0 + d) + op.input_padding_left < M64)
    (hxkd : kx * op.dilation_width < M64)
    (hxB : kx * op.dilation_width + op.stride_width * op.input_width ≤ M64) :
    applyWrites init (deconvWrites op MR T)
        ((g * op.batch_size + n) * T * (op.kernel_height * op.kernel_width)
          + t0 * (op.kernel_height * op.kernel_width)
          + (ky * op.kernel_width + kx) * MR + d) ≠ Ptr.zero
      ↔ ky * op.dilation_height ≤ oyOf op (t0 + d) + op.input_padding_top
          ∧ (oyOf op (t0 + d) + op.input_padding_top - ky * op.dilation_height)
              % op.stride_height = 0
          ∧ (oyOf op (t0 + d) + op.input_padding_top - ky * op.dilation_height)
              / op.stride_height < op.input_height
          ∧ kx * op.dilation_width ≤ oxOf op (t0 + d) + op.input_padding_left
          ∧ (oxOf op (t0 + d) + op.input_padding_left - kx * op.dilation_width)
              % op.stride_width = 0
          ∧ (oxOf op (t0 + d) + op.input_padding_left - kx * op.dilation_width)
              / op.stride_width < op.input_width := by
  obtain ⟨c, hc⟩ := ht0m
  obtain ⟨Q, hQ⟩ := hdvd
  have hq : c < T / MR := by
    subst hQ hc
    rw [Nat.mul_div_cancel_left _ hMR]
    exact Nat.lt_of_mul_lt_mul_left ht0
  have ht0q : t0 = c * MR := by rw [hc, Nat.mul_comm]
  have hkey := deconvWrites_entry op MR T init hMR ⟨Q, hQ⟩ hg hn hq hd hky hkx hidx
  have hidx_eq : (deconvEntry op MR T g n c d ky kx).1
      = (g * op.batch_size + n) * T * (op.kernel_height * op.kernel_width)
        + t0 * (op.kernel_height * op.kernel_width)
        + (ky * op.kernel_width + kx) * MR + d := by
    simp only [deconvEntry]
    rw [convIdx_eq_pure op MR T hMR ⟨Q, hQ⟩ hg hn hq hd hky hkx hidx, ht0q]
  rw [hidx_eq] at hkey
  rw [hkey]
  simp only [deconvEntry, sub64_eq_sub hos hosM, ← ht0q]
  simp only [oyOf, oxOf] at hyA hxA
  rw [ite_ne_zero_iff]
  have hiffY := @deconvAxis_iff
    (min (t0 + d) (op.output_height * op.output_width - 1) / op.output_width
        + op.input_padding_top)
    (ky * op.dilation_height) op.stride_height op.input_height
    hsH hyA hykd hyB
  have hiffX := @deconvAxis_iff
    (min (t0 + d) (op.output_height * op.output_width - 1) % op.output_width
        + op.input_padding_left)
    (kx * op.dilation_width) op.stride_width op.input_width
    hsW hxA hxkd hxB
  simp only [oyOf, oxOf]
  constructor
  · rintro ⟨h1, h2, h3, h4⟩
    obtain ⟨b1, b2, b3⟩ := hiffY.mp ⟨h1, h2⟩
    obtain ⟨c1, c2, c3⟩ := hiffX.mp ⟨h3, h4⟩
    exact ⟨b1, b2, b3, c1, c2, c3⟩
  · rintro ⟨b1, b2, b3, c1, c2, c3⟩
    obtain ⟨h1, h2⟩ := hiffY.mpr ⟨b1, b2, b3⟩
    obtain ⟨h3, h4⟩ := hiffX.mpr ⟨c1, c2, c3⟩
    exact ⟨h1, h2, h3, h4⟩

/-- Witness for C5 (amended): on a concrete 1x1 transposed-conv plan the iff
turns the stride/range test into a non-zero entry. -/
theorem deconv2d_entry_nonzero_iff_witness :
    applyWrites (fun _ => Ptr.zero) (deconvWrites opTiny 1 1) 0 ≠ Ptr.zero :=
  (deconv2d_entry_nonzero_iff opTiny 1 1 (fun _ => Ptr.zero) 0 0 0 0 0 0
    (by decide) (by decide) (by decide) (by decide) (by decide) (by decide) (by decide)
    (by decide) (by decide) (by decide) (by decide) (by decide) (by decide) (by decide)
    (by decide) (by decide) (by decide) (by decide) (by decide) (by decide)).mpr (by decide)

/-- Buffer index written by the depthwise and max-pool planners
(`indirection.c` lines 143 and 254), reduced modulo 2^64. -/
def planIdx (op : ConvOp) (sh sw n oy ox kx ky : Nat) : Nat :=
  ((n * op.output_height + oy) * sh + ox * sw * op.kernel_height
    + kx * op.kernel_height + ky) % M64

/-- Input-pointer offset written by the depthwise and max-pool planners
(`indirection.c` lines 145 and 255): no group-channel term. -/
def rowOff (op : ConvOp) (n iy ix : Nat) : Nat :=
  (((n * op.input_height + iy) * op.input_width + ix) * op.input_pixel_stride) % M64

/-- The sequence of stores performed by `qnnp_indirection_init_dwconv2d`
starting at image `batch_start`, in program order. -/
def dwconvWrites (op : ConvOp) (batch_start sh sw : Nat) : List (Nat × Ptr) :=
  (List.range' batch_start (op.batch_size - batch_start)).flatMap fun n =>
  (List.range op.output_height).flatMap fun oy =>
  (List.range op.kernel_height).flatMap fun ky =>
  let iy := sub64 (oy * op.stride_height + ky * op.dilation_height) op.input_padding_top
  if iy < op.input_height then
    (List.range op.output_width).flatMap fun ox =>
    (List.range op.kernel_width).map fun kx =>
      let ix := sub64 (ox * op.stride_width + kx * op.dilation_width) op.input_padding_left
      if ix < op.input_width then
        (planIdx op sh sw n oy ox kx ky, Ptr.inp (rowOff op n iy ix))
      else
        (planIdx op sh sw n oy ox kx ky, Ptr.zero)
  else
    (List.range op.output_width).flatMap fun ox =>
    (List.range op.kernel_width).map fun kx =>
      (planIdx op sh sw n oy ox kx ky, Ptr.zero)

/-- Loop body of `qnnp_indirection_init_maxpool2d` (`indirection.c`
lines 248-255) for one tuple: the store it performs (always a valid input
pointer, clamped to the image border). -/
def maxpoolEntry (op : ConvOp) (sh sw n oy ky ox kx : Nat) : Nat × Ptr :=
  let iy := doz64 (oy * op.stride_height + ky * op.dilation_height) op.input_padding_top
  let ciy := min iy (sub64 op.input_height 1)
  let ix := doz64 (ox * op.stride_width + kx * op.dilation_width) op.input_padding_left
  let cix := min ix (sub64 op.input_width 1)
  (planIdx op sh sw n oy ox kx ky, Ptr.inp (rowOff op n ciy cix))

/-- The sequence of stores performed by `qnnp_indirection_init_maxpool2d`
starting at image `batch_start`, in program order. -/
def maxpoolWrites (op : ConvOp) (batch_start sh sw : Nat) : List (Nat × Ptr) :=
  (List.range' batch_start (op.batch_size - batch_start)).flatMap fun n =>
  (List.range op.output_height).flatMap fun oy =>
  (List.range op.kernel_height).flatMap fun ky =>
  (List.range op.output_width).flatMap fun ox =>
  (List.range op.kernel_width).map fun kx => maxpoolEntry op sh sw n oy ky ox kx

/-- Every store of the depthwise planner targets an index of the batched
layout form with image `n ∈ [batch_start, N)`. -/
theorem dwconvWrites_idx (op : ConvOp) (b sh sw : Nat) {e : Nat × Ptr}
    (he : e ∈ dwconvWrites op b sh sw) :
    ∃ n oy ox kx ky, b ≤ n ∧ n < op.batch_size ∧ oy < op.output_height
      ∧ ox < op.output_width ∧ kx < op.kernel_width ∧ ky < op.kernel_height
      ∧ e.1 = planIdx op sh sw n oy ox kx ky := by
  unfold dwconvWrites at he
  simp only [List.mem_flatMap, List.mem_range, List.mem_range'_1] at he
  obtain ⟨n, hn, oy, hoy, ky, hky, hrest⟩ := he
  have hnN : b ≤ n ∧ n < op.batch_size := by omega
  by_cases hiy : sub64 (oy * op.stride_height + ky * op.dilation_height)
      op.input_padding_top < op.input_height
  · rw [if_pos hiy] at hrest
    simp only [List.mem_flatMap, List.mem_map, List.mem_range] at hrest
    obtain ⟨ox, hox, kx, hkx, he⟩ := hrest
    refine ⟨n, oy, ox, kx, ky, hnN.1, hnN.2, hoy, hox, hkx, hky, ?_⟩
    by_cases hix : sub64 (ox * op.stride_width + kx * op.dilation_width)
        op.input_padding_left < op.input_width
    · rw [if_pos hix] at he
      rw [← he]
    · rw [if_neg hix] at he
      rw [← he]
  · rw [if_neg hiy] at hrest
    simp only [List.mem_flatMap, List.mem_map, List.mem_range] at hrest
    obtain ⟨ox, hox, kx, hkx, he⟩ := hrest
    exact ⟨n, oy, ox, kx, ky, hnN.1, hnN.2, hoy, hox, hkx, hky, by rw [← he]⟩

/-- Every store of the max-pool planner targets an index of the batched
layout form with image `n ∈ [batch_start, N)`; its value is never the zero
sentinel. -/
theorem maxpoolWrites_idx (op : ConvOp) (b sh sw : Nat) {e : Nat × Ptr}
    (he : e ∈ maxpoolWrites op b sh sw) :
    (∃ n oy ox kx ky, b ≤ n ∧ n < op.batch_size ∧ oy < op.output_height
      ∧ ox < op.output_width ∧ kx < op.kernel_width ∧ ky < op.kernel_height
      ∧ e = maxpoolEntry op sh sw n oy ky ox kx)
    ∧ e.2 ≠ Ptr.zero := by
  unfold maxpoolWrites at he
  simp only [List.mem_flatMap, List.mem_map, List.mem_range, List.mem_range'_1] at he
  obtain ⟨n, hn, oy, hoy, ky, hky, ox, hox, kx, hkx, he⟩ := he
  refine ⟨⟨n, oy, ox, kx, ky, by omega, by omega, hoy, hox, hkx, hky, he.symm⟩, ?_⟩
  rw [← he]
  simp [maxpoolEntry]

theorem planIdx_pure (op : ConvOp) (sh sw : Nat) {n oy ox kx ky : Nat}
    (hn : n < op.batch_size) (hoy : oy < op.output_height)
    (hox : ox < op.output_width) (hkx : kx < op.kernel_width) (hky : ky < op.kernel_height)
    (hsw : op.kernel_width ≤ sw)
    (hsh : op.output_width * (sw * op.kernel_height) ≤ sh)
    (hM : op.batch_size * op.output_height * sh ≤ M64) :
    planIdx op sh sw n oy ox kx ky
      = (n * op.output_height + oy) * sh + ox * sw * op.kernel_height
          + kx * op.kernel_height + ky
    ∧ (n * op.output_height + oy) * sh + ox * sw * op.kernel_height
          + kx * op.kernel_height + ky < op.batch_size * op.output_height * sh := by
  have hkk : kx * op.kernel_height + ky < sw * op.kernel_height := by
    calc kx * op.kernel_height + ky < kx * op.kernel_height + op.kernel_height := by omega
      _ = (kx + 1) * op.kernel_height := by ring
      _ ≤ sw * op.kernel_height := Nat.mul_le_mul_right _ (le_trans hkx hsw)
  have hinner : ox * sw * op.kernel_height + (kx * op.kernel_height + ky) < sh := by
    calc ox * sw * op.kernel_height + (kx * op.kernel_height + ky)
        = (kx * op.kernel_height + ky) + sw * op.kernel_height * ox := by ring
      _ < sw * op.kernel_height * op.output_width := digit_lt hkk hox
      _ = op.output_width * (sw * op.kernel_height) := by ring
      _ ≤ sh := hsh
  have hrow : n * op.output_height + oy < op.batch_size * op.output_height := by
    calc n * op.output_height + oy = oy + op.output_height * n := by ring
      _ < op.output_height * op.batch_size := digit_lt hoy hn
      _ = op.batch_size * op.output_height := by ring
  have hpure : (n * op.output_height + oy) * sh + ox * sw * op.kernel_height
      + kx * op.kernel_height + ky < op.batch_size * op.output_height * sh := by
    calc (n * op.output_height + oy) * sh + ox * sw * op.kernel_height
          + kx * op.kernel_height + ky
        = (ox * sw * op.kernel_height + (kx * op.kernel_height + ky))
          + sh * (n * op.output_height + oy) := by ring
      _ < sh * (op.batch_size * op.output_height) := digit_lt hinner hrow
      _ = op.batch_size * op.output_height * sh := by ring
  exact ⟨Nat.mod_eq_of_lt (lt_of_lt_of_le hpure hM), hpure⟩

theorem planIdx_tuple_inj (op : ConvOp) (sh sw : Nat)
    {n oy ox kx ky n' oy' ox' kx' ky' : Nat}
    (hn : n < op.batch_size) (hoy : oy < op.output_height)
    (hox : ox < op.output_width) (hkx : kx < op.kernel_width) (hky : ky < op.kernel_height)
    (hn' : n' < op.batch_size) (hoy' : oy' < op.output_height)
    (hox' : ox' < op.output_width) (hkx' : kx' < op.kernel_width)
    (hky' : ky' < op.kernel_height)
    (hsw : op.kernel_width ≤ sw)
    (hsh : op.output_width * (sw * op.kernel_height) ≤ sh)
    (hM : op.batch_size * op.output_height * sh ≤ M64)
    (h : planIdx op sh sw n oy ox kx ky = planIdx op sh sw n' oy' ox' kx' ky') :
    n = n' ∧ oy = oy' ∧ ox = ox' ∧ kx = kx' ∧ ky = ky' := by
  rw [(planIdx_pure op sh sw hn hoy hox hkx hky hsw hsh hM).1,
      (planIdx_pure op sh sw hn' hoy' hox' hkx' hky' hsw hsh hM).1] at h
  have hkxsw : kx < sw := lt_of_lt_of_le hkx hsw
  have hkxsw' : kx' < sw := lt_of_lt_of_le hkx' hsw
  have hinner : ky + op.kernel_height * (kx + sw * ox)
      < op.kernel_height * (sw * op.output_width) :=
    digit_lt hky (digit_lt hkxsw hox)
  have hinner' : ky' + op.kernel_height * (kx' + sw * ox')
      < op.kernel_height * (sw * op.output_width) :=
    digit_lt hky' (digit_lt hkxsw' hox')
  have hshpos : op.kernel_height * (sw * op.output_width) ≤ sh := by
    calc op.kernel_height * (sw * op.output_width)
        = op.output_width * (sw * op.kernel_height) := by ring
      _ ≤ sh := hsh
  have e1 : (n * op.output_height + oy) * sh + ox * sw * op.kernel_height
        + kx * op.kernel_height + ky
      = (ky + op.kernel_height * (kx + sw * ox)) + sh * (oy + op.output_height * n) := by
    ring
  have e2 : (n' * op.output_height + oy') * sh + ox' * sw * op.kernel_height
        + kx' * op.kernel_height + ky'
      = (ky' + op.kernel_height * (kx' + sw * ox')) + sh * (oy' + op.output_height * n') := by
    ring
  rw [e1, e2] at h
  obtain ⟨hin, hrow⟩ := add_mul_inj (lt_of_lt_of_le hinner hshpos)
    (lt_of_lt_of_le hinner' hshpos) h
  obtain ⟨hky2, hin2⟩ := add_mul_inj hky hky' hin
  obtain ⟨hkx2, hox2⟩ := add_mul_inj hkxsw hkxsw' hin2
  obtain ⟨hoy2, hn2⟩ := add_mul_inj hoy hoy' hrow
  exact ⟨hn2, hoy2, hox2, hkx2, hky2⟩

theorem doz64_eq {a b : Nat} (ha : a < M64) (hb : b < M64) : doz64 a b = a - b := by
  simp only [doz64, M64] at *
  split_ifs <;> omega

theorem rowOff_pure_lt (op : ConvOp) {n ciy cix : Nat}
    (hn : n < op.batch_size) (hciy : ciy < op.input_height) (hcix : cix < op.input_width)
    (hoffM : op.batch_size * op.input_height * op.input_width * op.input_pixel_stride
      < M64) :
    ((n * op.input_height + ciy) * op.input_width + cix) * op.input_pixel_stride < M64 := by
  have h1 : n * op.input_height + ciy < op.batch_size * op.input_height := by
    calc n * op.input_height + ciy = ciy + op.input_height * n := by ring
      _ < op.input_height * op.batch_size := digit_lt hciy hn
      _ = op.batch_size * op.input_height := by ring
  have h2 : (n * op.input_height + ciy) * op.input_width + cix
      < op.batch_size * op.input_height * op.input_width := by
    calc (n * op.input_height + ciy) * op.input_width + cix
        = cix + op.input_width * (n * op.input_height + ciy) := by ring
      _ < op.input_width * (op.batch_size * op.input_height) := digit_lt hcix h1
      _ = op.batch_size * op.input_height * op.input_width := by ring
  calc ((n * op.input_height + ciy) * op.input_width + cix) * op.input_pixel_stride
      ≤ op.batch_size * op.input_height * op.input_width * op.input_pixel_stride :=
        Nat.mul_le_mul_right _ (le_of_lt h2)
    _ < M64 := hoffM

/-- C10: invoked with `batch_start = b`, the depthwise and max-pool planners
write only buffer indices of the form
`(n·H' + oy)·step_height + ox·step_width·kH + kx·kH + ky` with image
`n ∈ [b, N)`; any index `i` outside that set keeps its prior contents, and —
under the capacity preconditions on the step strides — so does every index
`j` belonging to an image `n < b` (i.e. `j < b·H'·step_height`), so earlier
images are never overwritten by a later partial plan. -/
theorem planner_batch_start_frame (op : ConvOp) (b sh sw : Nat)
    (initDw initMp : Nat → Ptr) (i j : Nat)
    (hfree : ∀ n, n < op.batch_size → ∀ oy, oy < op.output_height →
      ∀ ox, ox < op.output_width → ∀ kx, kx < op.kernel_width →
      ∀ ky, ky < op.kernel_height → b ≤ n →
        i ≠ planIdx op sh sw n oy ox kx ky)
    (hsw : op.kernel_width ≤ sw)
    (hsh : op.output_width * (sw * op.kernel_height) ≤ sh)
    (hM : op.batch_size * op.output_height * sh ≤ M64)
    (hj : j < b * op.output_height * sh) :
    applyWrites initDw (dwconvWrites op b sh sw) i = initDw i
      ∧ applyWrites initMp (maxpoolWrites op b sh sw) i = initMp i
      ∧ applyWrites initDw (dwconvWrites op b sh sw) j = initDw j
      ∧ applyWrites initMp (maxpoolWrites op b sh sw) j = initMp j := by
  have hjlow : ∀ {n oy ox kx ky : Nat}, b ≤ n → n < op.batch_size →
      oy < op.output_height → ox < op.output_width → kx < op.kernel_width →
      ky < op.kernel_height → planIdx op sh sw n oy ox kx ky ≠ j := by
    intro n oy ox kx ky hb hn hoy hox hkx hky
    rw [(planIdx_pure op sh sw hn hoy hox hkx hky hsw hsh hM).1]
    have hlow : b * op.output_height * sh ≤ (n * op.output_height + oy) * sh := by
      calc b * op.output_height * sh ≤ n * op.output_height * sh :=
            Nat.mul_le_mul_right _ (Nat.mul_le_mul_right _ hb)
        _ ≤ (n * op.output_height + oy) * sh := Nat.mul_le_mul_right _ (by omega)
    omega
  refine ⟨?_, ?_, ?_, ?_⟩
  · refine applyWrites_notMem _ _ _ (fun e he => ?_)
    obtain ⟨n, oy, ox, kx, ky, hb, hn, hoy, hox, hkx, hky, hidx⟩ :=
      dwconvWrites_idx op b sh sw he
    rw [hidx]
    exact (hfree n hn oy hoy ox hox kx hkx ky hky hb).symm
  · refine applyWrites_notMem _ _ _ (fun e he => ?_)
    obtain ⟨⟨n, oy, ox, kx, ky, hb, hn, hoy, hox, hkx, hky, hee⟩, _⟩ :=
      maxpoolWrites_idx op b sh sw he
    rw [hee]
    simp only [maxpoolEntry]
    exact (hfree n hn oy hoy ox hox kx hkx ky hky hb).symm
  · refine applyWrites_notMem _ _ _ (fun e he => ?_)
    obtain ⟨n, oy, ox, kx, ky, hb, hn, hoy, hox, hkx, hky, hidx⟩ :=
      dwconvWrites_idx op b sh sw he
    rw [hidx]
    exact hjlow hb hn hoy hox hkx hky
  · refine applyWrites_notMem _ _ _ (fun e he => ?_)
    obtain ⟨⟨n, oy, ox, kx, ky, hb, hn, hoy, hox, hkx, hky, hee⟩, _⟩ :=
      maxpoolWrites_idx op b sh sw he
    rw [hee]
    simp only [maxpoolEntry]
    exact hjlow hb hn hoy hox hkx hky

/-- A 1x1 operator with two images, to instantiate batched planner theorems. -/
def opBatch2 : ConvOp := ⟨1, 1, 1, 2, 1, 1, 1, 1, 1, 1, 1, 1, 1, 1, 0, 0⟩

/-- Witness for C10: planning only image 1 of a two-image operator leaves
index 0 (image 0's only slot) untouched in both planners. -/
theorem planner_batch_start_frame_witness :
    applyWrites (fun _ => Ptr.inp 7) (dwconvWrites opBatch2 1 1 1) 0 = Ptr.inp 7
      ∧ applyWrites (fun _ => Ptr.inp 8) (maxpoolWrites opBatch2 1 1 1) 0 = Ptr.inp 8
      ∧ applyWrites (fun _ => Ptr.inp 7) (dwconvWrites opBatch2 1 1 1) 0 = Ptr.inp 7
      ∧ applyWrites (fun _ => Ptr.inp 8) (maxpoolWrites opBatch2 1 1 1) 0 = Ptr.inp 8 :=
  planner_batch_start_frame opBatch2 1 1 1 (fun _ => Ptr.inp 7) (fun _ => Ptr.inp 8) 0 0
    (by
      intro n hn oy hoy ox hox kx hkx ky hky hb
      simp only [opBatch2] at hn hoy hox hkx hky
      have h1 : n = 1 := by omega
      have h2 : oy = 0 := by omega
      have h3 : ox = 0 := by omega
      have h4 : kx = 0 := by omega
      have h5 : ky = 0 := by omega
      subst h1 h2 h3 h4 h5
      decide)
    (by decide) (by decide) (by decide) (by decide)

/-- C6: for the max-pool planner, for every image `n ≥ batch_start` and every
output/pooling position, the buffer entry finally stored at index
`(n·H' + oy)·step_height + ox·step_width·kH + kx·kH + ky` is the valid input
pointer addressing pixel `(iy, ix)` with `iy = min(doz(oy·sH + ky·dH, pT), H−1)`
and `ix = min(doz(ox·sW + kx·dW, pL), W−1)`; moreover no store of this planner
ever writes the zero sentinel. -/
theorem maxpool_plan_entry (op : ConvOp) (b sh sw : Nat) (init : Nat → Ptr)
    (n oy ky ox kx : Nat) (e : Nat × Ptr)
    (hb : b ≤ n) (hn : n < op.batch_size) (hoy : oy < op.output_height)
    (hky : ky < op.kernel_height) (hox : ox < op.output_width) (hkx : kx < op.kernel_width)
    (hsw : op.kernel_width ≤ sw)
    (hsh : op.output_width * (sw * op.kernel_height) ≤ sh)
    (hM : op.batch_size * op.output_height * sh ≤ M64)
    (hH : 0 < op.input_height) (hW : 0 < op.input_width)
    (hHM : op.input_height < M64) (hWM : op.input_width < M64)
    (hyA : oy * op.stride_height + ky * op.dilation_height < M64)
    (hpT : op.input_padding_top < M64)
    (hxA : ox * op.stride_width + kx * op.dilation_width < M64)
    (hpL : op.input_padding_left < M64)
    (hoffM : op.batch_size * op.input_height * op.input_width * op.input_pixel_stride < M64)
    (he : e ∈ maxpoolWrites op b sh sw) :
    applyWrites init (maxpoolWrites op b sh sw)
        ((n * op.output_height + oy) * sh + ox * sw * op.kernel_height
          + kx * op.kernel_height + ky)
      = Ptr.inp (((n * op.input_height
            + min (oy * op.stride_height + ky * op.dilation_height - op.input_padding_top)
                (op.input_height - 1)) * op.input_width
          + min (ox * op.stride_width + kx * op.dilation_width - op.input_padding_left)
              (op.input_width - 1)) * op.input_pixel_stride)
    ∧ e.2 ≠ Ptr.zero := by
  refine ⟨?_, (maxpoolWrites_idx op b sh sw he).2⟩
  have hciy : min (oy * op.stride_height + ky * op.dilation_height - op.input_padding_top)
      (op.input_height - 1) < op.input_height :=
    lt_of_le_of_lt (min_le_right _ _) (by omega)
  have hcix : min (ox * op.stride_width + kx * op.dilation_width - op.input_padding_left)
      (op.input_width - 1) < op.input_width :=
    lt_of_le_of_lt (min_le_right _ _) (by omega)
  have hval : (maxpoolEntry op sh sw n oy ky ox kx).2
      = Ptr.inp (((n * op.input_height
            + min (oy * op.stride_height + ky * op.dilation_height - op.input_padding_top)
                (op.input_height - 1)) * op.input_width
          + min (ox * op.stride_width + kx * op.dilation_width - op.input_padding_left)
              (op.input_width - 1)) * op.input_pixel_stride) := by
    simp only [maxpoolEntry]
    rw [doz64_eq hyA hpT, doz64_eq hxA hpL, sub64_eq_sub hH hHM, sub64_eq_sub hW hWM]
    unfold rowOff
    rw [Nat.mod_eq_of_lt (rowOff_pure_lt op hn hciy hcix hoffM)]
  have hidx_eq : (maxpoolEntry op sh sw n oy ky ox kx).1
      = (n * op.output_height + oy) * sh + ox * sw * op.kernel_height
          + kx * op.kernel_height + ky := by
    simp only [maxpoolEntry]
    exact (planIdx_pure op sh sw hn hoy hox hkx hky hsw hsh hM).1
  rw [← hidx_eq, ← hval]
  apply applyWrites_eq_of_mem
  · have : ((maxpoolEntry op sh sw n oy ky ox kx).1,
        (maxpoolEntry op sh sw n oy ky ox kx).2) = maxpoolEntry op sh sw n oy ky ox kx := rfl
    rw [this]
    unfold maxpoolWrites
    simp only [List.mem_flatMap, List.mem_map, List.mem_range, List.mem_range'_1]
    exact ⟨n, ⟨hb, by omega⟩, oy, hoy, ky, hky, ox, hox, kx, hkx, rfl⟩
  · rintro e' he' h1
    obtain ⟨⟨n', oy', ox', kx', ky', hb', hn', hoy', hox', hkx', hky', hee⟩, _⟩ :=
      maxpoolWrites_idx op b sh sw he'
    subst hee
    simp only [maxpoolEntry] at h1 ⊢
    obtain ⟨rfl, rfl, rfl, rfl, rfl⟩ :=
      planIdx_tuple_inj op sh sw hn' hoy' hox' hkx' hky' hn hoy hox hkx hky hsw hsh hM h1
    rfl

/-- Witness for C6: concrete 1x1 max-pool plan, clamped coordinates evaluate,
and the sample store's value is non-zero. -/
theorem maxpool_plan_entry_witness :
    applyWrites (fun _ => Ptr.zero) (maxpoolWrites opTiny 0 1 1) 0 = Ptr.inp 0
      ∧ (maxpoolEntry opTiny 1 1 0 0 0 0 0).2 ≠ Ptr.zero :=
  maxpool_plan_entry opTiny 0 1 1 (fun _ => Ptr.zero) 0 0 0 0 0
    (maxpoolEntry opTiny 1 1 0 0 0 0 0)
    (by decide) (by decide) (by decide) (by decide) (by decide) (by decide) (by decide)
    (by decide) (by decide) (by decide) (by decide) (by decide) (by decide) (by decide)
    (by decide) (by decide) (by decide) (by decide) (by decide)

/-- Two's-complement wraparound to signed 32 bits (non-saturating NEON
integer arithmetic). -/
def wrap32 (x : Int) : Int := (x + 2147483648) % 4294967296 - 2147483648

/-- Saturation to signed 32 bits. -/
def sat32 (x : Int) : Int := max (-2147483648) (min 2147483647 x)

/-- Saturation to signed 16 bits (`vqmovn_s32`, `vqaddq_s16`). -/
def sat16 (x : Int) : Int := max (-32768) (min 32767 x)

/-- Saturation to unsigned 8 bits (`vqmovun_s16`). -/
def satu8 (x : Int) : Int := max 0 (min 255 x)

/-- `vqrdmulhq_s32`: saturating rounding doubling high multiply,
`sat32((2·a·b + 2^31) >> 32)` with the arithmetic shift modelled as floor
division. -/
def vqrdmulh (a b : Int) : Int := sat32 ((2 * a * b + 2147483648) / 4294967296)

/-- The micro-kernel's requantization stage (`8x8-neon.c` lines 460-562) on
one 32-bit accumulator lane `a`: `vqrdmulh` by the multiplier, the
`vsraq_n_s32`/`vbicq_s32` pre-shift fix (subtract 1 from negative lanes when
the shift is non-zero), `vrshlq_s32` by the negated logical shift `S` (the
neon `right_shift` field holds `-S`; the `vceqq_s32` mask keeps `S = 0` a
no-op), saturating narrow to int16, saturating add of the output zero-point,
saturating unsigned narrow to u8, then `vmaxq_u8`/`vminq_u8` clamping. -/
def requantNeon (a M : Int) (S : Nat) (Z lo hi : Int) : Int :=
  let x := vqrdmulh a M
  let xf := wrap32 (x + (if S = 0 then 0 else if x < 0 then -1 else 0))
  let y := if S = 0 then xf else wrap32 ((xf + 2 ^ (S - 1)) / 2 ^ S)
  let z := sat16 (sat16 y + Z)
  let u := satu8 z
  min (max u lo) hi

/-- The claim's reference rounding right shift: round to nearest, ties toward
+∞ when the input is non-negative and toward −∞ when negative; a no-op when
`S = 0`. -/
def roundRshiftRef (x : Int) (S : Nat) : Int :=
  if S = 0 then x
  else if 0 ≤ x then (x + 2 ^ (S - 1)) / 2 ^ S
  else (x + 2 ^ (S - 1) - 1) / 2 ^ S

/-- The reference requantization of claim C2 / spec §4.3, written from the
spec's words:
`out(a) = clamp(sat_u8(sat_i16(round_rshift(sat_qrdmulh(a, M), S) + Z)), lo, hi)`. -/
def requantRef (a M : Int) (S : Nat) (Z lo hi : Int) : Int :=
  max lo (min hi (satu8 (sat16 (roundRshiftRef (vqrdmulh a M) S + Z))))

theorem wrap32_eq_self {x : Int} (h1 : -2147483648 ≤ x) (h2 : x ≤ 2147483647) :
    wrap32 x = x := by
  simp only [wrap32]
  omega

theorem vqrdmulh_bounds (a M : Int)
    (ha1 : -2147483648 ≤ a) (ha2 : a ≤ 2147483647)
    (hM1 : 0 < M) (hM2 : M < 2147483648) :
    -2147483647 ≤ vqrdmulh a M ∧ vqrdmulh a M ≤ 2147483647 := by
  have h1 : (-2147483648 : Int) * M ≤ a * M :=
    mul_le_mul_of_nonneg_right ha1 (le_of_lt hM1)
  have h2 : (-2147483648 : Int) * 2147483647 ≤ (-2147483648 : Int) * M :=
    mul_le_mul_of_nonpos_left (by omega) (by norm_num)
  have h3 : a * M ≤ 2147483647 * M := mul_le_mul_of_nonneg_right ha2 (le_of_lt hM1)
  have h4 : (2147483647 : Int) * M ≤ 2147483647 * 2147483647 :=
    mul_le_mul_of_nonneg_left (by omega) (by norm_num)
  have hlo : (-9223372030412324864 : Int) ≤ 2 * a * M + 2147483648 := by linarith
  have hhi : 2 * a * M + 2147483648 ≤ 9223372034707292162 := by linarith
  have hdlo := Int.ediv_le_ediv (by norm_num : (0:Int) < 4294967296) hlo
  have hdhi := Int.ediv_le_ediv (by norm_num : (0:Int) < 4294967296) hhi
  norm_num at hdlo hdhi
  unfold vqrdmulh sat32
  omega

theorem shift_stage_eq (x : Int) (S : Nat)
    (hx1 : -2147483647 ≤ x) (hx2 : x ≤ 2147483647) :
    (if S = 0 then wrap32 (x + (if S = 0 then 0 else if x < 0 then -1 else 0))
     else wrap32 ((wrap32 (x + (if S = 0 then 0 else if x < 0 then -1 else 0))
                    + 2 ^ (S - 1)) / 2 ^ S))
      = roundRshiftRef x S := by
  by_cases hS0 : S = 0
  · subst hS0
    simp only [roundRshiftRef, eq_self_iff_true, if_true, add_zero]
    exact wrap32_eq_self (by omega) (by omega)
  · simp only [if_neg hS0, roundRshiftRef]
    have hfb : (-1 ≤ if x < 0 then (-1 : Int) else 0)
        ∧ (if x < 0 then (-1 : Int) else 0) ≤ 0 := by
      split_ifs <;> omega
    rw [wrap32_eq_self (x := x + (if x < 0 then (-1 : Int) else 0))
      (by omega) (by omega)]
    have hpow1 : (1 : Int) ≤ 2 ^ (S - 1) := one_le_pow₀ (by norm_num)
    have hpos : (0 : Int) < 2 ^ S := pow_pos (by norm_num) S
    have h2S : (2 : Int) ≤ 2 ^ S := by
      calc (2 : Int) = 2 ^ 1 := by norm_num
        _ ≤ 2 ^ S := pow_le_pow_right₀ (by norm_num) (by omega)
    have hhS : (2 : Int) ^ (S - 1) ≤ 2 ^ S := pow_le_pow_right₀ (by norm_num) (by omega)
    have hq1 : (-2147483648 : Int)
        ≤ (x + (if x < 0 then (-1 : Int) else 0) + 2 ^ (S - 1)) / 2 ^ S := by
      rw [Int.le_ediv_iff_mul_le hpos]
      have hneg : (-2147483648 : Int) * 2 ^ S ≤ -2147483648 * 1 :=
        mul_le_mul_of_nonpos_left (one_le_pow₀ (by norm_num)) (by norm_num)
      omega
    have hq2 : (x + (if x < 0 then (-1 : Int) else 0) + 2 ^ (S - 1)) / 2 ^ S
        ≤ 2147483647 := by
      have hint : (2147483647 : Int) * 2 ≤ 2147483647 * 2 ^ S :=
        mul_le_mul_of_nonneg_left h2S (by norm_num)
      have hexp : (2147483648 : Int) * 2 ^ S = 2147483647 * 2 ^ S + 2 ^ S := by ring
      have hlt : x + (if x < 0 then (-1 : Int) else 0) + 2 ^ (S - 1)
          < 2147483648 * 2 ^ S := by
        linarith [hhS]
      have := (Int.ediv_lt_iff_lt_mul hpos).mpr hlt
      omega
    rw [wrap32_eq_self hq1 hq2]
    by_cases hx0 : x < 0
    · rw [if_pos hx0, if_neg (by omega : ¬ (0 : Int) ≤ x)]
      congr 1
      ring
    · rw [if_neg hx0, if_pos (by omega : (0 : Int) ≤ x)]
      congr 1
      ring

theorem sat16_eq_ite (y : Int) :
    sat16 y = if y < -32768 then -32768 else if 32767 < y then 32767 else y := by
  unfold sat16
  split_ifs with h1 h2
  · rw [min_eq_right (by omega : y ≤ 32767), max_eq_left (by omega)]
  · rw [min_eq_left (by omega : (32767 : Int) ≤ y), max_eq_right (by omega)]
  · rw [min_eq_right (by omega : y ≤ 32767), max_eq_right (by omega)]

theorem satu8_eq_ite (y : Int) :
    satu8 y = if y < 0 then 0 else if 255 < y then 255 else y := by
  unfold satu8
  split_ifs with h1 h2
  · rw [min_eq_right (by omega : y ≤ 255), max_eq_left (by omega)]
  · rw [min_eq_left (by omega : (255 : Int) ≤ y), max_eq_right (by omega)]
  · rw [min_eq_right (by omega : y ≤ 255), max_eq_right (by omega)]

theorem clamp_comm (u lo hi : Int) (h : lo ≤ hi) :
    min (max u lo) hi = max lo (min hi u) := by
  rcases le_total u lo with h1 | h1
  · rw [max_eq_right h1, min_eq_left h, min_eq_right (le_trans h1 h), max_eq_left h1]
  · rcases le_total u hi with h2 | h2
    · rw [max_eq_left h1, min_eq_left h2, min_eq_right h2, max_eq_right h1]
    · rw [max_eq_left h1, min_eq_right h2, min_eq_left h2, max_eq_right h]

theorem narrow_stage_eq (y Z lo hi : Int)
    (hZ1 : 0 ≤ Z) (hZ2 : Z ≤ 255) (hlo : 0 ≤ lo) (hhi : hi ≤ 255) (hlohi : lo ≤ hi) :
    min (max (satu8 (sat16 (sat16 y + Z))) lo) hi
      = max lo (min hi (satu8 (sat16 (y + Z)))) := by
  rw [clamp_comm _ _ _ hlohi]
  suffices h : satu8 (sat16 (sat16 y + Z)) = satu8 (sat16 (y + Z)) by rw [h]
  by_cases hA : y < -32768
  · have e1 : sat16 y = -32768 := by rw [sat16_eq_ite, if_pos hA]
    have e2 : sat16 ((-32768 : Int) + Z) = -32768 + Z := by
      rw [sat16_eq_ite, if_neg (by omega), if_neg (by omega)]
    have u1 : satu8 ((-32768 : Int) + Z) = 0 := by
      rw [satu8_eq_ite, if_pos (by omega)]
    have u2 : satu8 (sat16 (y + Z)) = 0 := by
      rw [sat16_eq_ite]
      split_ifs with p1 p2
      · rw [satu8_eq_ite, if_pos (by omega)]
      · exact absurd p2 (by omega)
      · rw [satu8_eq_ite, if_pos (by omega)]
    rw [e1, e2, u1, u2]
  · by_cases hB : 32767 < y
    · have e1 : sat16 y = 32767 := by rw [sat16_eq_ite, if_neg (by omega), if_pos hB]
      have e2 : sat16 ((32767 : Int) + Z) = 32767 := by
        rw [sat16_eq_ite]
        split_ifs <;> omega
      have e3 : sat16 (y + Z) = 32767 := by
        rw [sat16_eq_ite]
        split_ifs <;> omega
      rw [e1, e2, e3]
    · have e1 : sat16 y = y := by rw [sat16_eq_ite, if_neg hA, if_neg hB]
      rw [e1]

/-- Counterexample to C2 as stated: for output zero-point `Z = -32600` (inside
the spec's declared `[-32768, 32767]` domain) the kernel saturates to int16
before adding `Z` while the reference formula saturates after, and the
difference survives the u8 narrow: accumulator `a = 2^17`, `M = 2^30`,
`S = 0`, `lo = 0`, `hi = 255` gives 167 from the kernel and 255 from the
reference. -/
theorem requant_zero_point_counterexample :
    requantNeon 131072 1073741824 0 (-32600) 0 255 = 167
      ∧ requantRef 131072 1073741824 0 (-32600) 0 255 = 255 := by
  constructor <;> decide

/-- C2 (amended): for every int32 accumulator `a`, multiplier `M ∈ (0, 2^31)`,
right shift `S ∈ [0, 31]`, output zero-point `Z` in its operational range
`[0, 255]`, and clamp bounds `0 ≤ lo ≤ hi ≤ 255`, the micro-kernel's
requantization of `a` equals the reference
`clamp(sat_u8(sat_i16(round_rshift(sat_qrdmulh(a, M), S) + Z)), lo, hi)`,
with round_rshift rounding ties to +∞ for non-negative input and to −∞ for
negative input, and a no-op at `S = 0`. -/
theorem requant_neon_eq_ref (a M : Int) (S : Nat) (Z lo hi : Int)
    (ha1 : -2147483648 ≤ a) (ha2 : a ≤ 2147483647)
    (hM1 : 0 < M) (hM2 : M < 2147483648)
    (hS : S ≤ 31)
    (hZ1 : 0 ≤ Z) (hZ2 : Z ≤ 255)
    (hlo : 0 ≤ lo) (hhi : hi ≤ 255) (hlohi : lo ≤ hi) :
    requantNeon a M S Z lo hi = requantRef a M S Z lo hi := by
  obtain ⟨hx1, hx2⟩ := vqrdmulh_bounds a M ha1 ha2 hM1 hM2
  dsimp only [requantNeon, requantRef]
  rw [shift_stage_eq (vqrdmulh a M) S hx1 hx2]
  exact narrow_stage_eq _ Z lo hi hZ1 hZ2 hlo hhi hlohi

/-- Witness for C2 (amended): the pipelines agree at a concrete parameter
point. -/
theorem requant_neon_eq_ref_witness :
    requantNeon 120 1073741824 1 3 0 255 = requantRef 120 1073741824 1 3 0 255 :=
  requant_neon_eq_ref 120 1073741824 1 3 0 255
    (by decide) (by decide) (by decide) (by decide) (by decide) (by decide) (by decide)
    (by decide) (by decide) (by decide)

/-- Byte-addressed memory; reads reduce to a byte value. -/
def MemB : Type := Nat → Nat

/-- A byte load from memory. -/
def byteAt (m : MemB) (x : Nat) : Nat := m x % 256

/-- The 64 int32 accumulators of the 8x8 micro-kernel, the running offset
into the packed weight stream `w`, and the log of every `w` byte offset read
so far. -/
structure KState : Type where
  acc : Fin 8 → Fin 8 → Int
  wOff : Nat
  wLog : List Nat

/-- One weight-row step of the inner reduction: load 8 weight bytes at the
current `w` offset (`vld1_u8`), subtract the kernel zero-point with widening
(`vsubl_u8` reinterpreted signed), and multiply-accumulate one activation
lane per row into all 64 accumulators (`vmlal_lane_s16`, modular int32). -/
def mulRowStep (w : MemB) (kzp : Nat) (act : Fin 8 → Int) (st : KState) : KState :=
  { acc := fun i c =>
      wrap32 (st.acc i c + act i * ((byteAt w (st.wOff + c.1) : Int) - (kzp : Int))),
    wOff := st.wOff + 8,
    wLog := st.wLog ++ List.range' st.wOff 8 }

/-- One full 8-channel chunk of the inner reduction (`8x8-neon.c` lines
83-283): eight weight rows, row `l` multiplying activation lane `l` of the 8
bytes loaded from each row pointer at channel offset `aOff`. -/
def chunkStep (w amem : MemB) (kzp : Nat) (addrs : Fin 8 → Nat) (aOff : Nat)
    (st : KState) : KState :=
  (List.range 8).foldl
    (fun s l => mulRowStep w kzp
      (fun i => (byteAt amem (addrs i + aOff + l) : Int)) s) st

/-- Tail byte-lane extraction (`8x8-neon.c` lines 284-302): load 8 bytes at
`addr - p` (`vld1_u8(a - a_predecrement)` with `p = 8 - k`), view them as one
64-bit little-endian lane, apply `vshl_u64` with shift `-8p` (a logical right
shift by `8p` bits), and read byte `j` (lane `j` after `vmovl_u8`). -/
def tailLane (amem : MemB) (addr p j : Nat) : Nat :=
  let u := (List.range 8).foldl
    (fun acc t => acc + byteAt amem (addr - p + t) * 256 ^ t) 0
  u / 256 ^ p / 256 ^ j % 256

/-- The tail reduction (`8x8-neon.c` lines 284-457): when `k = kc mod 8 ≠ 0`,
the conditional ladder (`k >= 2`, `k > 2`, `k >= 4`, ...) runs exactly rows
`0..k-1`; tail row `j` multiplies tail activation lane `j`, extracted from
the adjusted load at `aᵢ - (8 - k)` where `aᵢ` has advanced to
`addrs i + (kc - k)` after the full chunks. -/
def tailRun (w amem : MemB) (kzp : Nat) (addrs : Fin 8 → Nat) (kc : Nat)
    (st : KState) : KState :=
  (List.range (kc % 8)).foldl
    (fun s j => mulRowStep w kzp
      (fun i => (tailLane amem (addrs i + (kc - kc % 8)) (8 - kc % 8) j : Int)) s) st

/-- One kernel-site step (`8x8-neon.c` lines 70-458): the inner loop of
`kc / 8` full chunks, then the tail when `kc mod 8 ≠ 0`. -/
def siteRun (w amem : MemB) (kzp kc : Nat) (addrs : Fin 8 → Nat)
    (st : KState) : KState :=
  let st1 := (List.range (kc / 8)).foldl
    (fun s q => chunkStep w amem kzp addrs (8 * q) s) st
  if kc % 8 = 0 then st1 else tailRun w amem kzp addrs kc st1

/-- Little-endian signed int32 decode of the 4 bytes at `off` in `w`. -/
def int32At (w : MemB) (off : Nat) : Int :=
  let u := byteAt w off + 256 * byteAt w (off + 1) + 65536 * byteAt w (off + 2)
    + 16777216 * byteAt w (off + 3)
  if u < 2147483648 then (u : Int) else (u : Int) - 4294967296

/-- Initial kernel state (`8x8-neon.c` lines 39-54): two 16-byte `vld1q_s32`
loads read the 8 int32 biases (`w` offsets 0..31) and replicate them across
the 8 accumulator rows. -/
def initState (w : MemB) : KState :=
  { acc := fun _ c => int32At w (4 * c.1),
    wOff := 32,
    wLog := List.range' 0 16 ++ List.range' 16 16 }

/-- Accumulation phase of `q8conv_ukernel_8x8__neon`: the do-while loop over
`ks` kernel sites, site `s` consuming the 8 row pointers `a[8s..8s+7]`. -/
def kernelAccRun (w amem : MemB) (kzp kc ks : Nat) (aArr : Nat → Nat) : KState :=
  (List.range ks).foldl
    (fun st s => siteRun w amem kzp kc (fun i => aArr (8 * s + i.1)) st) (initState w)

/-- Output row pointer computation with `mr` folding (`8x8-neon.c` lines
564-592): each `cI` is the previous pointer plus `c_stride`, folded back when
`mr` is too small. -/
def cPtr (mr cbase cs : Nat) (i : Nat) : Nat :=
  let c0 := cbase
  let c1 := if mr < 2 then c0 else c0 + cs
  let c2 := if mr ≤ 2 then c1 else c1 + cs
  let c3 := if mr < 4 then c2 else c2 + cs
  let c4 := if mr ≤ 4 then c3 else c3 + cs
  let c5 := if mr < 6 then c4 else c4 + cs
  let c6 := if mr ≤ 6 then c5 else c5 + cs
  let c7 := if mr ≠ 8 then c6 else c6 + cs
  match i with
  | 0 => c0
  | 1 => c1
  | 2 => c2
  | 3 => c3
  | 4 => c4
  | 5 => c5
  | 6 => c6
  | _ => c7

/-- One store pass over the 8 (folded) row pointers, writing `width` output
bytes per row starting at column `colOff` (the column offset models the
`vextq_u8` rotations between the 4/2/1-byte store chunks). -/
def rowChunkWrites (mr cbase cs : Nat) (outv : Nat → Nat → Nat)
    (colOff width : Nat) : List (Nat × Nat) :=
  (List.range 8).flatMap fun i =>
    (List.range width).map fun t =>
      (cPtr mr cbase cs i + colOff + t, outv i (colOff + t))

/-- The store phase of `q8conv_ukernel_8x8__neon` (`8x8-neon.c` lines
593-643): a full 8-byte store per row when `nr = 8`, otherwise chunks of 4,
2 and 1 bytes guided by the residual `nr`. -/
def storeWrites (mr nr cbase cs : Nat) (outv : Nat → Nat → Nat) : List (Nat × Nat) :=
  if nr = 8 then rowChunkWrites mr cbase cs outv 0 8
  else
    let l4 := if 4 ≤ nr then rowChunkWrites mr cbase cs outv 0 4 else []
    let o4 := if 4 ≤ nr then 4 else 0
    let nr4 := nr - o4
    let l2 := if 2 ≤ nr4 then rowChunkWrites mr cbase cs outv o4 2 else []
    let o2 := o4 + (if 2 ≤ nr4 then 2 else 0)
    let nr2 := nr - o2
    let l1 := if nr2 ≠ 0 then rowChunkWrites mr cbase cs outv o2 1 else []
    l4 ++ l2 ++ l1

/-- Quantization parameters consumed by the micro-kernel
(`qnnp_conv_quantization_params.neon`); `right_shift` holds the logical
shift amount whose negation is stored in the neon field. -/
structure QParams : Type where
  kernel_zero_point : Nat
  multiplier : Int
  right_shift : Nat
  output_zero_point : Int
  output_min : Nat
  output_max : Nat

/-- The full micro-kernel `q8conv_ukernel_8x8__neon`: accumulate over `ks`
sites and `kc` channels, requantize every lane, and store the folded
`mr x nr` block into output memory. -/
def q8conv_8x8 (mr nr kc ks : Nat) (aArr : Nat → Nat) (amem w cmem : MemB)
    (cbase cs : Nat) (qp : QParams) : Nat → Nat :=
  let st := kernelAccRun w amem qp.kernel_zero_point kc ks aArr
  let outv : Nat → Nat → Nat := fun i c =>
    if h : i < 8 ∧ c < 8 then
      (requantNeon (st.acc ⟨i, h.1⟩ ⟨c, h.2⟩) qp.multiplier qp.right_shift
        qp.output_zero_point (qp.output_min : Int) (qp.output_max : Int)).toNat
    else 0
  applyWrites cmem (storeWrites mr nr cbase cs outv)

theorem mulRowStep_wOff (w : MemB) (kzp : Nat) (act : Fin 8 → Int) (st : KState) :
    (mulRowStep w kzp act st).wOff = st.wOff + 8 := rfl

theorem mulRowStep_wLog (w : MemB) (kzp : Nat) (act : Fin 8 → Int) (st : KState) :
    (mulRowStep w kzp act st).wLog = st.wLog ++ List.range' st.wOff 8 := rfl

theorem mulFold_w (w : MemB) (kzp : Nat) (f : Nat → Fin 8 → Int) :
    ∀ (m : Nat) (st : KState),
      ((List.range m).foldl (fun s j => mulRowStep w kzp (f j) s) st).wOff
          = st.wOff + 8 * m
        ∧ ((List.range m).foldl (fun s j => mulRowStep w kzp (f j) s) st).wLog
          = st.wLog ++ List.range' st.wOff (8 * m) := by
  intro m
  induction m with
  | zero =>
    intro st
    simp
  | succ m ih =>
    intro st
    rw [List.range_succ, List.foldl_append]
    obtain ⟨hw, hl⟩ := ih st
    simp only [List.foldl_cons, List.foldl_nil, mulRowStep_wOff, mulRowStep_wLog, hw, hl]
    constructor
    · omega
    · have hr := List.range'_append st.wOff (8 * m) 8 1
      simp only [Nat.one_mul] at hr
      rw [List.append_assoc, hr]
      have he : 8 + 8 * m = 8 * (m + 1) := by omega
      rw [he]

theorem chunkStep_w (w amem : MemB) (kzp : Nat) (addrs : Fin 8 → Nat) (aOff : Nat)
    (st : KState) :
    (chunkStep w amem kzp addrs aOff st).wOff = st.wOff + 64
      ∧ (chunkStep w amem kzp addrs aOff st).wLog
        = st.wLog ++ List.range' st.wOff 64 := by
  have h := mulFold_w w kzp (fun l i => (byteAt amem (addrs i + aOff + l) : Int)) 8 st
  simpa [chunkStep] using h

theorem chunksFold_w (w amem : MemB) (kzp : Nat) (addrs : Fin 8 → Nat) :
    ∀ (Q : Nat) (st : KState),
      ((List.range Q).foldl (fun s q => chunkStep w amem kzp addrs (8 * q) s) st).wOff
          = st.wOff + 64 * Q
        ∧ ((List.range Q).foldl (fun s q => chunkStep w amem kzp addrs (8 * q) s) st).wLog
          = st.wLog ++ List.range' st.wOff (64 * Q) := by
  intro Q
  induction Q with
  | zero =>
    intro st
    simp
  | succ Q ih =>
    intro st
    rw [List.range_succ, List.foldl_append]
    obtain ⟨hw, hl⟩ := ih st
    obtain ⟨hw2, hl2⟩ := chunkStep_w w amem kzp addrs (8 * Q)
      ((List.range Q).foldl (fun s q => chunkStep w amem kzp addrs (8 * q) s) st)
    simp only [List.foldl_cons, List.foldl_nil, hw2, hl2, hw, hl]
    constructor
    · omega
    · have hr := List.range'_append st.wOff (64 * Q) 64 1
      simp only [Nat.one_mul] at hr
      rw [List.append_assoc, hr]
      have he : 64 + 64 * Q = 64 * (Q + 1) := by omega
      rw [he]

theorem siteRun_w (w amem : MemB) (kzp kc : Nat) (addrs : Fin 8 → Nat) (st : KState) :
    (siteRun w amem kzp kc addrs st).wOff = st.wOff + (64 * (kc / 8) + 8 * (kc % 8))
      ∧ (siteRun w amem kzp kc addrs st).wLog
        = st.wLog ++ List.range' st.wOff (64 * (kc / 8) + 8 * (kc % 8)) := by
  unfold siteRun
  obtain ⟨hw, hl⟩ := chunksFold_w w amem kzp addrs (kc / 8) st
  by_cases hk : kc % 8 = 0
  · rw [if_pos hk, hk]
    simp only [Nat.mul_zero, Nat.add_zero]
    exact ⟨hw, hl⟩
  · rw [if_neg hk]
    unfold tailRun
    obtain ⟨hw2, hl2⟩ := mulFold_w w kzp
      (fun j i => (tailLane amem (addrs i + (kc - kc % 8)) (8 - kc % 8) j : Int))
      (kc % 8)
      ((List.range (kc / 8)).foldl (fun s q => chunkStep w amem kzp addrs (8 * q) s) st)
    rw [hw2, hl2, hw, hl]
    constructor
    · omega
    · have hr := List.range'_append st.wOff (64 * (kc / 8)) (8 * (kc % 8)) 1
      simp only [Nat.one_mul] at hr
      rw [List.append_assoc, hr]
      have he : 8 * (kc % 8) + 64 * (kc / 8) = 64 * (kc / 8) + 8 * (kc % 8) := by omega
      rw [he]

theorem kernelAccRun_w (w amem : MemB) (kzp kc ks : Nat) (aArr : Nat → Nat) :
    (kernelAccRun w amem kzp kc ks aArr).wOff
        = 32 + ks * (64 * (kc / 8) + 8 * (kc % 8))
      ∧ (kernelAccRun w amem kzp kc ks aArr).wLog
        = List.range (32 + ks * (64 * (kc / 8) + 8 * (kc % 8))) := by
  have main : ∀ (n : Nat) (st : KState),
      ((List.range n).foldl
        (fun st s => siteRun w amem kzp kc (fun i => aArr (8 * s + i.1)) st) st).wOff
          = st.wOff + n * (64 * (kc / 8) + 8 * (kc % 8))
        ∧ ((List.range n).foldl
            (fun st s => siteRun w amem kzp kc (fun i => aArr (8 * s + i.1)) st) st).wLog
          = st.wLog ++ List.range' st.wOff (n * (64 * (kc / 8) + 8 * (kc % 8))) := by
    intro n
    induction n with
    | zero =>
      intro st
      simp
    | succ n ih =>
      intro st
      rw [List.range_succ, List.foldl_append]
      obtain ⟨hw, hl⟩ := ih st
      obtain ⟨hw2, hl2⟩ := siteRun_w w amem kzp kc (fun i => aArr (8 * n + i.1))
        ((List.range n).foldl
          (fun st s => siteRun w amem kzp kc (fun i => aArr (8 * s + i.1)) st) st)
      simp only [List.foldl_cons, List.foldl_nil, hw2, hl2, hw, hl]
      constructor
      · ring
      · have hr := List.range'_append st.wOff (n * (64 * (kc / 8) + 8 * (kc % 8)))
          (64 * (kc / 8) + 8 * (kc % 8)) 1
        simp only [Nat.one_mul] at hr
        rw [List.append_assoc, hr]
        have he : 64 * (kc / 8) + 8 * (kc % 8) + n * (64 * (kc / 8) + 8 * (kc % 8))
            = (n + 1) * (64 * (kc / 8) + 8 * (kc % 8)) := by ring
        rw [he]
  obtain ⟨hw, hl⟩ := main ks (initState w)
  unfold kernelAccRun
  constructor
  · rw [hw]
    simp [initState]
  · rw [hl]
    have hinit : (initState w).wLog = List.range' 0 32 := by
      unfold initState
      have hr := List.range'_append 0 16 16 1
      simp only [Nat.one_mul, Nat.zero_add] at hr
      simp only [hr]
    rw [hinit]
    have hoff : (initState w).wOff = 32 := rfl
    rw [hoff]
    have hr := List.range'_append 0 32 (ks * (64 * (kc / 8) + 8 * (kc % 8))) 1
    simp only [Nat.one_mul, Nat.zero_add] at hr
    rw [hr, List.range_eq_range']
    have he : ks * (64 * (kc / 8) + 8 * (kc % 8)) + 32
        = 32 + ks * (64 * (kc / 8) + 8 * (kc % 8)) := by omega
    rw [he]

/-- C8: for every `mr, nr ∈ [1,8]`, `kc ≥ 0` and `ks ≥ 1`, one micro-kernel
invocation reads exactly the first `32 + ks·(⌊kc/8⌋·64 + 8·(kc mod 8))` byte
offsets of the packed weight stream (32 bias bytes, then 64 bytes per full
8-channel chunk and `8·k` bytes for a tail of `k = kc mod 8` channels per
kernel site), and never reads any weight byte beyond that extent: the log of
all `w` offsets read equals `List.range` of that count. -/
theorem q8conv_weight_read_extent (mr nr kc ks : Nat) (aArr : Nat → Nat)
    (amem w : MemB) (kzp : Nat)
    (hmr1 : 1 ≤ mr) (hmr8 : mr ≤ 8) (hnr1 : 1 ≤ nr) (hnr8 : nr ≤ 8) (hks : 1 ≤ ks) :
    (kernelAccRun w amem kzp kc ks aArr).wLog
      = List.range (32 + ks * (64 * (kc / 8) + 8 * (kc % 8))) :=
  (kernelAccRun_w w amem kzp kc ks aArr).2

/-- Witness for C8: a concrete invocation with `kc = 10`, `ks = 2` reads
exactly `32 + 2·(64 + 16) = 192` weight bytes. -/
theorem q8conv_weight_read_extent_witness :
    (kernelAccRun (fun _ => 0) (fun _ => 0) 0 10 2 (fun _ => 8)).wLog
      = List.range (32 + 2 * (64 * (10 / 8) + 8 * (10 % 8))) :=
  q8conv_weight_read_extent 1 8 10 2 (fun _ => 8) (fun _ => 0) (fun _ => 0) 0
    (by decide) (by decide) (by decide) (by decide) (by decide)

theorem foldl_add_range (f : Nat → Nat) :
    ∀ m, (List.range m).foldl (fun acc t => acc + f t) 0 = ∑ t ∈ Finset.range m, f t := by
  intro m
  induction m with
  | zero => simp
  | succ m ih =>
    rw [List.range_succ, List.foldl_append, ih, Finset.sum_range_succ]
    simp

theorem digit_extract :
    ∀ (s : Nat) (g : Nat → Nat), (∀ t, g t < 256) → ∀ m,
      (∑ t ∈ Finset.range m, g t * 256 ^ t) / 256 ^ s % 256 = if s < m then g s else 0 := by
  intro s
  induction s with
  | zero =>
    intro g hg m
    cases m with
    | zero => simp
    | succ m =>
      rw [Finset.sum_range_succ']
      have hshift : ∑ t ∈ Finset.range m, g (t + 1) * 256 ^ (t + 1)
          = 256 * ∑ t ∈ Finset.range m, g (t + 1) * 256 ^ t := by
        rw [Finset.mul_sum]
        refine Finset.sum_congr rfl fun t _ => ?_
        rw [pow_succ]
        ring
      rw [hshift]
      simp only [pow_zero, Nat.div_one, mul_one]
      rw [Nat.mul_add_mod, if_pos (Nat.succ_pos m), Nat.mod_eq_of_lt (hg 0)]
  | succ s ih =>
    intro g hg m
    cases m with
    | zero => simp
    | succ m =>
      rw [Finset.sum_range_succ']
      have hshift : ∑ t ∈ Finset.range m, g (t + 1) * 256 ^ (t + 1)
          = 256 * ∑ t ∈ Finset.range m, g (t + 1) * 256 ^ t := by
        rw [Finset.mul_sum]
        refine Finset.sum_congr rfl fun t _ => ?_
        rw [pow_succ]
        ring
      rw [hshift]
      simp only [pow_zero, mul_one]
      have hpow : (256 : Nat) ^ (s + 1) = 256 * 256 ^ s := by
        rw [pow_succ]
        ring
      rw [hpow, ← Nat.div_div_eq_div_mul]
      have hdiv : (256 * ∑ t ∈ Finset.range m, g (t + 1) * 256 ^ t + g 0) / 256
          = ∑ t ∈ Finset.range m, g (t + 1) * 256 ^ t := by
        rw [Nat.mul_add_div (by norm_num), Nat.div_eq_of_lt (hg 0)]
        omega
      rw [hdiv, ih (fun t => g (t + 1)) (fun t => hg (t + 1)) m]
      by_cases h : s < m
      · rw [if_pos h, if_pos (by omega)]
      · rw [if_neg h, if_neg (by omega)]

theorem tailLane_eq (amem : MemB) (addr p j : Nat) (hp7 : p ≤ 7) (ha : p ≤ addr) :
    tailLane amem addr p j = if j < 8 - p then byteAt amem (addr + j) else 0 := by
  unfold tailLane
  rw [foldl_add_range (fun t => byteAt amem (addr - p + t) * 256 ^ t) 8]
  dsimp only
  rw [Nat.div_div_eq_div_mul, ← pow_add]
  rw [digit_extract (p + j) (fun t => byteAt amem (addr - p + t))
    (fun t => Nat.mod_lt _ (by norm_num)) 8]
  by_cases h : j < 8 - p
  · rw [if_pos (by omega : p + j < 8), if_pos h]
    have he : addr - p + (p + j) = addr + j := by omega
    rw [he]
  · rw [if_neg (by omega : ¬ p + j < 8), if_neg h]

theorem wrap32_add_left (a b : Int) : wrap32 (wrap32 a + b) = wrap32 (a + b) := by
  simp only [wrap32]
  omega

theorem mulRowStep_acc (w : MemB) (kzp : Nat) (act : Fin 8 → Int) (st : KState)
    (i c : Fin 8) :
    (mulRowStep w kzp act st).acc i c
      = wrap32 (st.acc i c + act i * ((byteAt w (st.wOff + c.1) : Int) - (kzp : Int))) :=
  rfl

theorem mulFold_acc (w : MemB) (kzp : Nat) (f : Nat → Fin 8 → Int) :
    ∀ (m : Nat) (st : KState) (i c : Fin 8),
      -2147483648 ≤ st.acc i c → st.acc i c ≤ 2147483647 →
      ((List.range m).foldl (fun s j => mulRowStep w kzp (f j) s) st).acc i c
        = wrap32 (st.acc i c + ∑ j ∈ Finset.range m,
            f j i * ((byteAt w (st.wOff + 8 * j + c.1) : Int) - (kzp : Int))) := by
  intro m
  induction m with
  | zero =>
    intro st i c h1 h2
    simp only [List.range_zero, List.foldl_nil, Finset.range_zero, Finset.sum_empty,
      Int.add_zero]
    exact (wrap32_eq_self h1 h2).symm
  | succ m ih =>
    intro st i c h1 h2
    rw [List.range_succ, List.foldl_append]
    simp only [List.foldl_cons, List.foldl_nil]
    rw [mulRowStep_acc, ih st i c h1 h2,
      (mulFold_w w kzp f m st).1, wrap32_add_left, Finset.sum_range_succ]
    congr 1
    ring

/-- Counterexample to C4 as stated: with `k = 1` and every memory byte equal
to 7, the claim's layout (valid bytes in the HIGH lanes after a LEFT shift,
unused LOW lanes zero) would require lane 0 to be 0 and lane 7 to hold the
valid byte 7; the code's `vshl_u64` by a negative amount is a logical RIGHT
shift, so lane 0 holds 7 and lane 7 is 0. -/
theorem q8conv_tail_shift_counterexample :
    ¬ (tailLane (fun _ => 7) 8 7 0 = 0 ∧ tailLane (fun _ => 7) 8 7 7 = 7) := by
  decide

/-- C4 (amended): in the tail path with `k = kc mod 8 ≠ 0`, each row pointer
(advanced to `addrs i + (kc − k)` after the full chunks) is loaded as 8 bytes
starting at `aᵢ − (8 − k)` and the 64-bit lane is logically right-shifted by
`8·(8−k)` bits, so the `k` valid bytes occupy the LOW lanes `0..k−1` with the
unused high lanes zero (the load re-reads up to `8−k` earlier bytes, not
bytes past the channel data); and for every activation and weight content the
tail contributes to each accumulator exactly the sum over the `k` tail
channels of `activation × (weight − kernel_zero_point)`, modulo int32
accumulator wraparound. -/
theorem q8conv_tail_contribution (w amem : MemB) (kzp kc : Nat)
    (addrs : Fin 8 → Nat) (st : KState) (i c : Fin 8) (j : Nat)
    (hk : kc % 8 ≠ 0) (ha : 8 ≤ addrs i)
    (h1 : -2147483648 ≤ st.acc i c) (h2 : st.acc i c ≤ 2147483647) :
    tailLane amem (addrs i + (kc - kc % 8)) (8 - kc % 8) j
        = (if j < kc % 8 then byteAt amem (addrs i + (kc - kc % 8) + j) else 0)
      ∧ (tailRun w amem kzp addrs kc st).acc i c
        = wrap32 (st.acc i c + ∑ t ∈ Finset.range (kc % 8),
            (byteAt amem (addrs i + (kc - kc % 8) + t) : Int)
              * ((byteAt w (st.wOff + 8 * t + c.1) : Int) - (kzp : Int))) := by
  have hmod : kc % 8 < 8 := Nat.mod_lt _ (by norm_num)
  have hlane : ∀ j' : Nat,
      tailLane amem (addrs i + (kc - kc % 8)) (8 - kc % 8) j'
        = if j' < kc % 8 then byteAt amem (addrs i + (kc - kc % 8) + j') else 0 := by
    intro j'
    have h := tailLane_eq amem (addrs i + (kc - kc % 8)) (8 - kc % 8) j'
      (by omega) (by omega)
    rwa [show 8 - (8 - kc % 8) = kc % 8 from by omega] at h
  refine ⟨hlane j, ?_⟩
  have hrun := mulFold_acc w kzp
    (fun j' i' => (tailLane amem (addrs i' + (kc - kc % 8)) (8 - kc % 8) j' : Int))
    (kc % 8) st i c h1 h2
  refine Eq.trans hrun ?_
  congr 1
  congr 1
  refine Finset.sum_congr rfl fun t ht => ?_
  dsimp only
  rw [hlane t, if_pos (Finset.mem_range.mp ht)]

/-- Witness for C4 (amended): with all activation bytes 7, all weight bytes
9, kernel zero-point 2 and `kc = 1`, the tail lane holds the valid byte and
the accumulator receives `7·(9−2) = 49`. -/
theorem q8conv_tail_contribution_witness :
    tailLane (fun _ => 7) 8 7 0 = 7
      ∧ (tailRun (fun _ => 9) (fun _ => 7) 2 (fun _ => 8) 1
          ⟨fun _ _ => 0, 32, []⟩).acc 0 0 = 49 := by
  have h := q8conv_tail_contribution (fun _ => 9) (fun _ => 7) 2 1 (fun _ => 8)
    ⟨fun _ _ => 0, 32, []⟩ 0 0 0 (by decide) (by decide) (by decide) (by decide)
  exact ⟨h.1.trans (by decide), h.2.trans (by decide)⟩

theorem cPtr_eq (mr cbase cs : Nat) (i : Nat) (hmr1 : 1 ≤ mr) (hmr8 : mr ≤ 8)
    (hi : i < 8) :
    cPtr mr cbase cs i = cbase + min i (mr - 1) * cs := by
  interval_cases i <;> interval_cases mr <;> norm_num [cPtr] <;> ring

theorem rowChunkWrites_mem (mr cbase cs : Nat) (outv : Nat → Nat → Nat)
    (colOff width : Nat) {e : Nat × Nat}
    (he : e ∈ rowChunkWrites mr cbase cs outv colOff width) :
    ∃ i, i < 8 ∧ ∃ t, t < width ∧ e.1 = cPtr mr cbase cs i + colOff + t := by
  unfold rowChunkWrites at he
  simp only [List.mem_flatMap, List.mem_map, List.mem_range] at he
  obtain ⟨i, hi, t, ht, he1⟩ := he
  exact ⟨i, hi, t, ht, by rw [← he1]⟩

theorem storeWrites_idx (mr nr cbase cs : Nat) (outv : Nat → Nat → Nat)
    (hnr8 : nr ≤ 8) {e : Nat × Nat} (he : e ∈ storeWrites mr nr cbase cs outv) :
    ∃ i, i < 8 ∧ ∃ col, col < nr ∧ e.1 = cPtr mr cbase cs i + col := by
  unfold storeWrites at he
  by_cases h8 : nr = 8
  · rw [if_pos h8] at he
    obtain ⟨i, hi, t, ht, he1⟩ := rowChunkWrites_mem mr cbase cs outv 0 8 he
    exact ⟨i, hi, 0 + t, by omega, by rw [he1]; try omega⟩
  · rw [if_neg h8] at he
    dsimp only at he
    rw [List.mem_append, List.mem_append] at he
    by_cases h4 : 4 ≤ nr
    · rcases he with (he | he) | he
      · rw [if_pos h4] at he
        obtain ⟨i, hi, t, ht, he1⟩ := rowChunkWrites_mem mr cbase cs outv 0 4 he
        exact ⟨i, hi, 0 + t, by omega, by rw [he1]; try omega⟩
      · rw [if_pos h4] at he
        by_cases h2 : 2 ≤ nr - 4
        · rw [if_pos h2] at he
          obtain ⟨i, hi, t, ht, he1⟩ := rowChunkWrites_mem mr cbase cs outv 4 2 he
          exact ⟨i, hi, 4 + t, by omega, by rw [he1]; try omega⟩
        · rw [if_neg h2] at he
          cases he
      · rw [if_pos h4] at he
        by_cases h2 : 2 ≤ nr - 4
        · rw [if_pos h2] at he
          by_cases h1 : nr - (4 + 2) ≠ 0
          · rw [if_pos h1] at he
            obtain ⟨i, hi, t, ht, he1⟩ := rowChunkWrites_mem mr cbase cs outv (4 + 2) 1 he
            exact ⟨i, hi, 4 + 2 + t, by omega, by rw [he1]; try omega⟩
          · rw [if_neg h1] at he
            cases he
        · rw [if_neg h2] at he
          by_cases h1 : nr - (4 + 0) ≠ 0
          · rw [if_pos h1] at he
            obtain ⟨i, hi, t, ht, he1⟩ := rowChunkWrites_mem mr cbase cs outv (4 + 0) 1 he
            exact ⟨i, hi, 4 + 0 + t, by omega, by rw [he1]; try omega⟩
          · rw [if_neg h1] at he
            cases he
    · rcases he with (he | he) | he
      · rw [if_neg h4] at he
        cases he
      · rw [if_neg h4] at he
        by_cases h2 : 2 ≤ nr - 0
        · rw [if_pos h2] at he
          obtain ⟨i, hi, t, ht, he1⟩ := rowChunkWrites_mem mr cbase cs outv 0 2 he
          exact ⟨i, hi, 0 + t, by omega, by rw [he1]; try omega⟩
        · rw [if_neg h2] at he
          cases he
      · rw [if_neg h4] at he
        by_cases h2 : 2 ≤ nr - 0
        · rw [if_pos h2] at he
          by_cases h1 : nr - (0 + 2) ≠ 0
          · rw [if_pos h1] at he
            obtain ⟨i, hi, t, ht, he1⟩ := rowChunkWrites_mem mr cbase cs outv (0 + 2) 1 he
            exact ⟨i, hi, 0 + 2 + t, by omega, by rw [he1]; try omega⟩
          · rw [if_neg h1] at he
            cases he
        · rw [if_neg h2] at he
          by_cases h1 : nr - (0 + 0) ≠ 0
          · rw [if_pos h1] at he
            obtain ⟨i, hi, t, ht, he1⟩ := rowChunkWrites_mem mr cbase cs outv (0 + 0) 1 he
            exact ⟨i, hi, 0 + 0 + t, by omega, by rw [he1]; try omega⟩
          · rw [if_neg h1] at he
            cases he

/-- C9: for every `mr, nr ∈ [1,8]` the micro-kernel writes only output bytes
lying in rows `0..mr−1` (addresses `cbase + i·c_stride + j`) and within each
written row only the first `nr` byte positions; every output byte outside
that `mr × nr` rectangle retains its pre-call contents. -/
theorem q8conv_store_frame (mr nr kc ks : Nat) (aArr : Nat → Nat)
    (amem w cmem : MemB) (cbase cs : Nat) (qp : QParams) (x : Nat)
    (hmr1 : 1 ≤ mr) (hmr8 : mr ≤ 8) (hnr1 : 1 ≤ nr) (hnr8 : nr ≤ 8)
    (hx : ∀ i, i < mr → ∀ j, j < nr → x ≠ cbase + i * cs + j) :
    q8conv_8x8 mr nr kc ks aArr amem w cmem cbase cs qp x = cmem x := by
  unfold q8conv_8x8
  apply applyWrites_notMem
  intro e he
  obtain ⟨i, hi, col, hcol, he1⟩ := storeWrites_idx mr nr cbase cs _ hnr8 he
  rw [he1, cPtr_eq mr cbase cs i hmr1 hmr8 hi]
  exact (hx (min i (mr - 1)) (lt_of_le_of_lt (min_le_right i (mr - 1)) (by omega))
    col hcol).symm

/-- Witness for C9: claim's `mr = 5, nr = 3` example — the byte at row 5,
column 0 keeps its pre-call contents. -/
theorem q8conv_store_frame_witness :
    q8conv_8x8 5 3 1 1 (fun _ => 8) (fun _ => 0) (fun _ => 0) (fun a => a + 1)
      0 8 ⟨0, 1, 0, 0, 0, 255⟩ 40 = 41 :=
  q8conv_store_frame 5 3 1 1 (fun _ => 8) (fun _ => 0) (fun _ => 0) (fun a => a + 1)
    0 8 ⟨0, 1, 0, 0, 0, 255⟩ 40
    (by decide) (by decide) (by decide) (by decide) (by decide)

set_option maxRecDepth 40000 in
/-- Counterexample to C3 as stated: in the claimed scenario (input bytes 3,
weight bytes 5, zero bias, `multiplier = 2^30`, `right_shift = 30`,
`mr = 1, nr = 8, ks = 1, kc = 8`) the rounding right shift by 30 reduces the
post-multiply value 60 to 0, so the stored output bytes are 0, not 60. -/
theorem q8conv_scenario1_counterexample :
    q8conv_8x8 1 8 8 1 (fun _ => 100) (fun _ => 3) (fun x => if x < 32 then 0 else 5)
      (fun _ => 9) 0 8 ⟨0, 1073741824, 30, 0, 0, 255⟩ 0 ≠ 60 := by
  decide

set_option maxRecDepth 40000 in
/-- C3 (amended): in the claimed scenario every accumulator equals
`3·5·8 = 120`, and the stored output is eight bytes of value 0 (the
`vqrdmulh` by `2^30` gives 60, which the rounding right shift by 30 reduces
to 0). -/
theorem q8conv_scenario1_amended :
    (∀ i c : Fin 8,
      (kernelAccRun (fun x => if x < 32 then 0 else 5) (fun _ => 3) 0 8 1
        (fun _ => 100)).acc i c = 120)
    ∧ ∀ t : Fin 8,
        q8conv_8x8 1 8 8 1 (fun _ => 100) (fun _ => 3) (fun x => if x < 32 then 0 else 5)
          (fun _ => 9) 0 8 ⟨0, 1073741824, 30, 0, 0, 255⟩ t.1 = 0 := by
  constructor <;> decide
